import Mathlib

/-!
# civil: adding chrono durations to instants

A shallow embedding of `civil_add_chrono_impl` (src/chrono.cpp) and the
properties its specification states about it.

Conventions of the embedding.

* `int` and `int64_t` values are integers of `Int`; the places where the C++
  computes in a fixed width are made explicit with `wrap32` and `wrap64`
  (two's complement reduction).
* An operand argument is `Option (List Int)`: `none` is the R `NULL`
  (`r_is_null`), `some p` an integer vector whose cells are `p`.
* The base vector `x` is a double vector read through `as_int64`, which
  lives in `utils.h`; the embedding keeps, for every cell of `x`, the
  `int64_t` that `as_int64` yields for it.
* The output is a double vector. A cell is the marker `r_dbl_na` or the
  double that the store `p_out[i] = ...count()` makes of the 64-bit count:
  a double has 53 significant bits, so that the count is rounded to the
  nearest double (`to_double`), which is a whole number and is kept as an
  integer.
* Reading a vector outside its storage is undefined behaviour in C++; the
  embedding makes it explicit: a function returns `none` when such a read is
  reached.
-/

namespace Civil

/-! ## Machine integers -/

/-- Reduction of an integer to the 32-bit two's complement range, the value an `int` holds. -/
def wrap32 (z : Int) : Int := (z + 2147483648) % 4294967296 - 2147483648

/-- Reduction of an integer to the 64-bit two's complement range, the value an `int64_t` holds. -/
def wrap64 (z : Int) : Int :=
  (z + 9223372036854775808) % 18446744073709551616 - 9223372036854775808

/-- The values of a signed 32-bit `int`. -/
def isInt32 (z : Int) : Prop := -2147483648 ≤ z ∧ z ≤ 2147483647

/-- The values of a signed 64-bit `int64_t`. -/
def isInt64 (z : Int) : Prop := -9223372036854775808 ≤ z ∧ z ≤ 9223372036854775807

instance (z : Int) : Decidable (isInt32 z) := by unfold isInt32; infer_instance

instance (z : Int) : Decidable (isInt64 z) := by unfold isInt64; infer_instance

/-! ## Doubles -/

/-- The spacing of the doubles around a whole number of magnitude `n` up to 2^63: 1 below 2^53,
twice as much with every further bit. -/
def ulp (n : Int) : Int :=
  if n < 9007199254740992 then 1
  else if n < 18014398509481984 then 2
  else if n < 36028797018963968 then 4
  else if n < 72057594037927936 then 8
  else if n < 144115188075855872 then 16
  else if n < 288230376151711744 then 32
  else if n < 576460752303423488 then 64
  else if n < 1152921504606846976 then 128
  else if n < 2305843009213693952 then 256
  else if n < 4611686018427387904 then 512
  else if n < 9223372036854775808 then 1024
  else 2048

/-- The multiple of `u` nearest to `n`, the even multiple when `n` is halfway between two. -/
def round_half_even (n u : Int) : Int :=
  if 2 * (n % u) < u then n / u * u
  else if u < 2 * (n % u) then (n / u + 1) * u
  else if n / u % 2 = 0 then n / u * u
  else (n / u + 1) * u

/-- The implicit conversion of an `int64_t` to `double` in the store
`p_out[i] = out_ssec.time_since_epoch().count()`: the nearest double, a tie going to the even
significand. The double is a whole number; its value is given. -/
def to_double (v : Int) : Int :=
  if 0 ≤ v then round_half_even v (ulp v) else -round_half_even (-v) (ulp (-v))

/-! ## Host values -/

/-- The missing marker of an R integer vector (`NA_INTEGER` of the R API, the least `int`). -/
def NA_INTEGER : Int := -2147483648

/-- Modelled from the spec: `r_int64_na` of utils.h, which is not among the sources. It is the
reserved missing marker of an instant held as a signed 64-bit count; the least `int64_t` is taken
for it. -/
def r_int64_na : Int := -9223372036854775808

/-- Modelled from the spec: `civil_classes_posixct` of utils.h, which is not among the sources.
It is the class tag the host runtime gives an instant sequence. -/
def civil_classes_posixct : List String := ["POSIXct", "POSIXt"]

/-- An attribute of a host vector (its element names, its zone tag): absent, or a character
vector. The code copies it and never looks inside. -/
abbrev Attr := Option (List String)

/-- The base vector `x`: for every cell the `int64_t` that `as_int64` yields for it, with its
element names and its zone tag. -/
structure Sexp where
  dbl : List Int
  names : Attr
  tzone : Attr
deriving DecidableEq, Repr

/-- A cell of the output double vector: the marker `r_dbl_na`, or the whole number held by the
double that `p_out[i] = out_ssec.time_since_epoch().count()` stores. -/
inductive Cell where
  | r_dbl_na
  | count (secs : Int)
deriving DecidableEq, Repr

/-- The vector `out` that `civil_add_chrono_impl` builds and returns. -/
structure Posixct where
  dbl : List Cell
  names : Attr
  klass : List String
  tzone : Attr
deriving DecidableEq, Repr

/-- Modelled from the spec: `r_is_scalar` of r.h, which is not among the sources. A vector of
exactly one cell is a scalar, broadcast to every index. -/
def r_is_scalar (p : List Int) : Bool := p.length == 1

/-- Modelled from the spec: `r_get_names` of r.h, which is not among the sources: the
element-name association of a vector. -/
def r_get_names (x : Sexp) : Attr := x.names

/-- Modelled from the spec: `civil_get_tzone` of zone.h, which is not among the sources: the
opaque zone tag of a vector. -/
def civil_get_tzone (x : Sexp) : Attr := x.tzone

/-- The read `recycle ? p[0] : p[i]`; `none` when the index is outside the vector. -/
def deref (p : List Int) (recycle : Bool) (i : Nat) : Option Int :=
  if recycle then p[0]? else p[i]?

/-! ## Durations of date.h and chrono -/

/-- The seven operands, in the order the loop body applies them. -/
inductive Units where
  | years | months | weeks | days | hours | minutes | seconds
deriving DecidableEq, Repr

/-- Conversion of `date::years{n}` to `std::chrono::seconds`: the tick count is widened to 64 bits
and multiplied by the period, 146097/400 days. -/
def years_to_seconds (n : Int) : Int := wrap64 (n * 31556952)

/-- Conversion of `date::months{n}` to `std::chrono::seconds`: a twelfth of the year's period. -/
def months_to_seconds (n : Int) : Int := wrap64 (n * 2629746)

/-- Conversion of `date::days{n}` to `std::chrono::seconds`. -/
def days_to_seconds (n : Int) : Int := wrap64 (n * 86400)

/-- Conversion of `std::chrono::hours{n}` to `std::chrono::seconds`. -/
def hours_to_seconds (n : Int) : Int := wrap64 (n * 3600)

/-- Conversion of `std::chrono::minutes{n}` to `std::chrono::seconds`. -/
def minutes_to_seconds (n : Int) : Int := wrap64 (n * 60)

/-- Construction `std::chrono::seconds{n}` from an `int`. -/
def seconds_to_seconds (n : Int) : Int := wrap64 n

/-- The weeks block: `elt_weeks *= 7` is an `int` multiplication, then `date::days{elt_weeks}`. -/
def weeks_to_seconds (n : Int) : Int := days_to_seconds (wrap32 (n * 7))

/-- The seconds one block adds to `duration` for the cell value `n` of its operand. -/
def Units.to_seconds : Units → Int → Int
  | .years => years_to_seconds
  | .months => months_to_seconds
  | .weeks => weeks_to_seconds
  | .days => days_to_seconds
  | .hours => hours_to_seconds
  | .minutes => minutes_to_seconds
  | .seconds => seconds_to_seconds

/-! ## The loop body -/

/-- Where one pass through the loop body stands after a block. -/
inductive Flow where
  /-- a vector was read outside its storage -/
  | oob
  /-- `p_out[i] = r_dbl_na; continue;` was taken -/
  | na
  /-- the pass goes on with this value of `duration` -/
  | run (duration : Int)
deriving DecidableEq, Repr

/-- One block `if (do_u) { ... }` of the loop body, for the operand `op` converted by `conv`:
nothing when the operand is `NULL`; otherwise the cell is read (broadcast when the operand is a
scalar), the pass ends with `r_dbl_na` when it is `NA_INTEGER`, and else its seconds are added to
`duration`. A pass that ended before does not reach the block. -/
def add_unit (op : Option (List Int)) (conv : Int → Int) (i : Nat) : Flow → Flow
  | .run duration =>
    match op with
    | none => .run duration
    | some p =>
      match deref p (r_is_scalar p) i with
      | none => .oob
      | some elt_u =>
        if elt_u = NA_INTEGER then .na else .run (wrap64 (duration + conv elt_u))
  | .oob => .oob
  | .na => .na

/-- The seven blocks of the loop body in the order of the source, from `duration{0}`. -/
def accumulate (years months weeks days hours minutes seconds : Option (List Int))
    (i : Nat) : Flow :=
  add_unit seconds seconds_to_seconds i
    (add_unit minutes minutes_to_seconds i
      (add_unit hours hours_to_seconds i
        (add_unit days days_to_seconds i
          (add_unit weeks weeks_to_seconds i
            (add_unit months months_to_seconds i
              (add_unit years years_to_seconds i (.run 0)))))))

/-- The body of the loop of `civil_add_chrono_impl` for the index `i`: what is written to
`p_out[i]`, or `none` when a vector is read outside its storage. -/
def loop_body (x : Sexp) (years months weeks days hours minutes seconds : Option (List Int))
    (i : Nat) : Option Cell :=
  match deref x.dbl (r_is_scalar x.dbl) i with
  | none => none
  | some elt =>
    if elt = r_int64_na then some .r_dbl_na
    else
      match accumulate years months weeks days hours minutes seconds i with
      | .oob => none
      | .na => some .r_dbl_na
      | .run duration => some (.count (to_double (wrap64 (elt + duration))))

/-- The loop `for (r_ssize i = 0; i < size; ++i)`, started at `i` with `n` passes left: the cells
written, in order. -/
def for_loop (body : Nat → Option Cell) (i : Nat) : Nat → Option (List Cell)
  | 0 => some []
  | n + 1 =>
    match body i with
    | none => none
    | some c =>
      match for_loop body (i + 1) n with
      | none => none
      | some cs => some (c :: cs)

/-- The function `civil_add_chrono_impl` of src/chrono.cpp: a new vector of `size` cells with the
names, the class and the zone tag poked first, then filled by the loop. -/
def civil_add_chrono_impl (x : Sexp) (years months weeks days hours minutes seconds :
    Option (List Int)) (size : Nat) : Option Posixct :=
  match for_loop (loop_body x years months weeks days hours minutes seconds) 0 size with
  | none => none
  | some cells =>
    some { dbl := cells
           names := r_get_names x
           klass := civil_classes_posixct
           tzone := civil_get_tzone x }

/-! ## Calls by unit, resolved values and the specification's vocabulary -/

/-- The seven operand arguments of a call, by unit. -/
abbrev Operands := Units → Option (List Int)

/-- The call of `civil_add_chrono_impl` with the operand arguments taken from `ops`. -/
def add_chrono (x : Sexp) (ops : Operands) (size : Nat) : Option Posixct :=
  civil_add_chrono_impl x (ops .years) (ops .months) (ops .weeks) (ops .days) (ops .hours)
    (ops .minutes) (ops .seconds) size

/-- The call in which no operand is present. -/
def no_operands : Operands := fun _ => none

/-- The call in which the unit `u` alone is present, with the cells `p`. -/
def only (u : Units) (p : List Int) : Operands := fun w => if w = u then some p else none

/-- The resolved value of a vector at the index `i`: its one cell when it is a scalar, else its
cell `i`. -/
def resolved (p : List Int) (i : Nat) : Option Int := deref p (r_is_scalar p) i

/-- The value of the unit `u` at the index `i`, with 0 for an absent operand. -/
def Operands.value (ops : Operands) (u : Units) (i : Nat) : Int :=
  match ops u with
  | none => 0
  | some p => (resolved p i).getD 0

/-- A vector that can be read at every index below `size`: one cell, or at least `size` cells. -/
def fits (p : List Int) (size : Nat) : Prop := p.length = 1 ∨ size ≤ p.length

instance (p : List Int) (size : Nat) : Decidable (fits p size) := by unfold fits; infer_instance

/-- A call in which the base and every present operand can be read at every index. -/
def WellSized (x : Sexp) (ops : Operands) (size : Nat) : Prop :=
  fits x.dbl size ∧ ∀ u p, ops u = some p → fits p size

/-- The order in which the loop body applies the units. -/
def unit_order : List Units := [.years, .months, .weeks, .days, .hours, .minutes, .seconds]

/-- The blocks of the units `us`, applied in that order. -/
def walk (ops : Operands) (i : Nat) : List Units → Flow → Flow
  | [], f => f
  | u :: us, f => walk ops i us (add_unit (ops u) u.to_seconds i f)

/-- The seconds a block adds for the cell value `n`, before their reduction to 64 bits. -/
def Units.exact_seconds : Units → Int → Int
  | .years, n => n * 31556952
  | .months, n => n * 2629746
  | .weeks, n => wrap32 (n * 7) * 86400
  | .days, n => n * 86400
  | .hours, n => n * 3600
  | .minutes, n => n * 60
  | .seconds, n => n

/-- The unit `u` is present and resolves to `NA_INTEGER` at the index `i`. -/
def Operands.missing_at (ops : Operands) (u : Units) (i : Nat) : Bool :=
  match ops u with
  | none => false
  | some p => resolved p i == some NA_INTEGER

/-- The sum of the seconds of the units `us` at the index `i`, in exact arithmetic. -/
def exact_sum (ops : Operands) (i : Nat) (us : List Units) : Int :=
  (us.map (fun u => u.exact_seconds (ops.value u i))).sum

/-- The seconds the block of the unit `u` adds at the index `i`: nothing for an absent operand,
else the converted resolved value. -/
def Operands.contribution (ops : Operands) (u : Units) (i : Nat) : Int :=
  match ops u with
  | none => 0
  | some _ => u.to_seconds (ops.value u i)

/-- The offset of the specification's conversion table at the index `i`, an absent unit
contributing 0. -/
def spec_offset (ops : Operands) (i : Nat) : Int :=
  31556952 * ops.value .years i + 2629746 * ops.value .months i + 604800 * ops.value .weeks i
    + 86400 * ops.value .days i + 3600 * ops.value .hours i + 60 * ops.value .minutes i
    + ops.value .seconds i

/-- The output cell that holds the instant `b`: the marker for the missing instant, else the
double of its count, which is the count itself for every count that a double holds. -/
def instant_cell (b : Int) : Cell := if b = r_int64_na then .r_dbl_na else .count (to_double b)

/-- The reference evaluator of the specification for one element with the base instant `elt`:
every present unit is inspected, without early exit; the element is missing when some present
unit is missing at the index, and else the base plus the sum of all contributions, added in
64 bits and stored as a double. -/
def reference_eval (ops : Operands) (elt : Int) (i : Nat) : Cell :=
  if unit_order.any (fun u => ops.missing_at u i) then .r_dbl_na
  else .count (to_double (wrap64 (elt + (unit_order.map (fun u => ops.contribution u i)).sum)))

/-- The values `duration` takes after each executed `+=` of the blocks `us`, in exact arithmetic,
from the value `d`; the walk stops at a missing or unreadable cell. -/
def partial_sums (ops : Operands) (i : Nat) : List Units → Int → List Int
  | [], _ => []
  | u :: us, d =>
    match ops u with
    | none => partial_sums ops i us d
    | some p =>
      match resolved p i with
      | none => []
      | some n =>
        if n = NA_INTEGER then []
        else (d + u.exact_seconds n) :: partial_sums ops i us (d + u.exact_seconds n)

/-- The cell a pass writes for the index `i` when every vector can be read there: missing for a
missing base instant or a missing present unit, else the base plus the contributions. -/
def pass_cell (x : Sexp) (ops : Operands) (i : Nat) : Cell :=
  if (resolved x.dbl i).getD 0 = r_int64_na then .r_dbl_na
  else reference_eval ops ((resolved x.dbl i).getD 0) i

/-- The loop body with its blocks taken in the order `us` in place of the order of the source. -/
def loop_body_in (us : List Units) (x : Sexp) (ops : Operands) (i : Nat) : Option Cell :=
  match deref x.dbl (r_is_scalar x.dbl) i with
  | none => none
  | some elt =>
    if elt = r_int64_na then some .r_dbl_na
    else
      match walk ops i us (.run 0) with
      | .oob => none
      | .na => some .r_dbl_na
      | .run duration => some (.count (to_double (wrap64 (elt + duration))))

/-- The values `duration` takes after each executed `+=` of the blocks `us`, as the code computes
them in 64 bits, from the value `d`; the walk stops at a missing or unreadable cell. -/
def duration_trace (ops : Operands) (i : Nat) : List Units → Int → List Int
  | [], _ => []
  | u :: us, d =>
    match ops u with
    | none => duration_trace ops i us d
    | some p =>
      match resolved p i with
      | none => []
      | some n =>
        if n = NA_INTEGER then []
        else wrap64 (d + u.to_seconds n)
          :: duration_trace ops i us (wrap64 (d + u.to_seconds n))

/-- The seconds in one tick of the duration a block adds: the weeks block adds days. -/
def Units.weight : Units → Int
  | .years => 31556952
  | .months => 2629746
  | .weeks => 86400
  | .days => 86400
  | .hours => 3600
  | .minutes => 60
  | .seconds => 1

/-- The sum of the weights of the units `us`. -/
def weight_sum (us : List Units) : Int := (us.map Units.weight).sum

/-- Every present operand can be read at the index `i`. -/
def Readable (ops : Operands) (i : Nat) : Prop :=
  ∀ u p, ops u = some p → ∃ v, resolved p i = some v

/-- Modelled from the spec: `as_int64` of utils.h, which is not among the sources, applied to a
cell of an output vector that is given back as a base: the missing marker of an instant for
`r_dbl_na` and for a double outside the 64-bit range, and else the whole number the double
holds. -/
def as_int64 : Cell → Int
  | .r_dbl_na => r_int64_na
  | .count secs => if isInt64 secs then secs else r_int64_na

/-- The output of a call taken as the base of a further call, with its names and its zone tag. -/
def Posixct.as_base (out : Posixct) : Sexp :=
  { dbl := out.dbl.map as_int64
    names := out.names
    tzone := out.tzone }

/-- The output of a call whose vectors can be read at every index, cell by cell. -/
def pass_output (x : Sexp) (ops : Operands) (size : Nat) : Posixct :=
  { dbl := (List.range' 0 size).map (pass_cell x ops)
    names := x.names
    klass := civil_classes_posixct
    tzone := x.tzone }

/-- The operands with every cell negated. -/
def negated (ops : Operands) : Operands := fun u => (ops u).map (List.map (fun v => -v))

/-- The operands of two calls put into one call; for two disjoint sets of present units no unit
is present in both. -/
def merged (opsA opsB : Operands) : Operands := fun u =>
  match opsA u with
  | some p => some p
  | none => opsB u

/-! ## Arithmetic in fixed width -/

theorem wrap64_add_left (a b : Int) : wrap64 (wrap64 a + b) = wrap64 (a + b) := by
  unfold wrap64; omega

theorem wrap64_add_right (a b : Int) : wrap64 (a + wrap64 b) = wrap64 (a + b) := by
  unfold wrap64; omega

theorem wrap64_of_isInt64 {z : Int} (h : isInt64 z) : wrap64 z = z := by
  unfold isInt64 at h; unfold wrap64; omega

theorem isInt64_wrap64 (z : Int) : isInt64 (wrap64 z) := by
  unfold isInt64 wrap64; omega

theorem wrap32_of_isInt32 {z : Int} (h : isInt32 z) : wrap32 z = z := by
  unfold isInt32 at h; unfold wrap32; omega

theorem isInt32_wrap32 (z : Int) : isInt32 (wrap32 z) := by
  unfold isInt32 wrap32; omega

theorem to_seconds_eq (u : Units) (n : Int) : u.to_seconds n = wrap64 (u.exact_seconds n) := by
  cases u <;> rfl

theorem exact_seconds_zero (u : Units) : u.exact_seconds 0 = 0 := by
  cases u <;> rfl

/-! ## The store into a double -/

theorem ulp_small {n : Int} (h : n < 9007199254740992) : ulp n = 1 := by
  unfold ulp
  rw [if_pos h]

theorem ulp_bounds (n : Int) : 0 < ulp n ∧ ulp n ≤ 2048 := by
  unfold ulp
  repeat' split
  all_goals (constructor <;> decide)

theorem round_half_even_one (n : Int) : round_half_even n 1 = n := by
  unfold round_half_even
  simp

theorem round_half_even_error (n u : Int) (hu : 0 < u) :
    2 * n - u ≤ 2 * round_half_even n u ∧ 2 * round_half_even n u ≤ 2 * n + u := by
  have hdiv := Int.emod_add_ediv n u
  have h0 := Int.emod_nonneg n (ne_of_gt hu)
  have hlt := Int.emod_lt_of_pos n hu
  unfold round_half_even
  by_cases h1 : 2 * (n % u) < u
  · rw [if_pos h1]
    constructor <;> linarith
  · rw [if_neg h1]
    by_cases h2 : u < 2 * (n % u)
    · rw [if_pos h2]
      constructor <;> linarith
    · rw [if_neg h2]
      by_cases h3 : n / u % 2 = 0
      · rw [if_pos h3]
        constructor <;> linarith
      · rw [if_neg h3]
        constructor <;> linarith

theorem to_double_of_small {v : Int} (h1 : -9007199254740992 ≤ v)
    (h2 : v ≤ 9007199254740992) : to_double v = v := by
  unfold to_double
  by_cases h0 : 0 ≤ v
  · rw [if_pos h0]
    by_cases h3 : v < 9007199254740992
    · rw [ulp_small h3, round_half_even_one]
    · have e : v = 9007199254740992 := by omega
      subst e
      decide
  · rw [if_neg h0]
    by_cases h3 : -v < 9007199254740992
    · rw [ulp_small h3, round_half_even_one]
      omega
    · have e : v = -9007199254740992 := by omega
      subst e
      decide

theorem to_double_error (v : Int) : v - 1024 ≤ to_double v ∧ to_double v ≤ v + 1024 := by
  unfold to_double
  by_cases h0 : 0 ≤ v
  · rw [if_pos h0]
    have hu := ulp_bounds v
    have he := round_half_even_error v (ulp v) hu.1
    omega
  · rw [if_neg h0]
    have hu := ulp_bounds (-v)
    have he := round_half_even_error (-v) (ulp (-v)) hu.1
    omega

/-! ## Reads -/

theorem resolved_of_fits {p : List Int} {size i : Nat} (h : fits p size) (hi : i < size) :
    ∃ v, resolved p i = some v := by
  unfold resolved deref r_is_scalar
  by_cases h1 : p.length = 1
  · have h0 : 0 < p.length := by omega
    exact ⟨p[0], by simp [h1, List.getElem?_eq_getElem h0]⟩
  · have hlt : i < p.length := by
      rcases h with h | h
      · exact absurd h h1
      · omega
    exact ⟨p[i], by simp [h1, List.getElem?_eq_getElem hlt]⟩

theorem resolved_singleton (v : Int) (i : Nat) : resolved [v] i = some v := by
  simp [resolved, deref, r_is_scalar]

theorem resolved_replicate (v : Int) {n i : Nat} (hi : i < n) :
    resolved (List.replicate n v) i = some v := by
  unfold resolved deref r_is_scalar
  by_cases h1 : n = 1
  · subst h1; simp
  · simp [h1, hi]

/-! ## The blocks -/

theorem add_unit_none (conv : Int → Int) (i : Nat) (f : Flow) : add_unit none conv i f = f := by
  cases f <;> rfl

theorem add_unit_na (op : Option (List Int)) (conv : Int → Int) (i : Nat) :
    add_unit op conv i .na = .na := rfl

theorem add_unit_oob (op : Option (List Int)) (conv : Int → Int) (i : Nat) :
    add_unit op conv i .oob = .oob := rfl

theorem add_unit_run {p : List Int} {i : Nat} {v : Int} (conv : Int → Int) (d : Int)
    (h : resolved p i = some v) :
    add_unit (some p) conv i (.run d)
      = if v = NA_INTEGER then .na else .run (wrap64 (d + conv v)) := by
  unfold resolved at h
  simp [add_unit, h]

theorem walk_na (ops : Operands) (i : Nat) (us : List Units) : walk ops i us .na = .na := by
  induction us with
  | nil => rfl
  | cons u us ih => simpa [walk, add_unit_na] using ih

theorem walk_oob (ops : Operands) (i : Nat) (us : List Units) : walk ops i us .oob = .oob := by
  induction us with
  | nil => rfl
  | cons u us ih => simpa [walk, add_unit_oob] using ih

theorem accumulate_eq_walk (ops : Operands) (i : Nat) :
    accumulate (ops .years) (ops .months) (ops .weeks) (ops .days) (ops .hours) (ops .minutes)
      (ops .seconds) i = walk ops i unit_order (.run 0) := rfl

theorem walk_run (ops : Operands) (i : Nat) (hr : Readable ops i) (us : List Units) (S : Int) :
    walk ops i us (.run (wrap64 S))
      = if us.any (fun u => ops.missing_at u i) then .na
        else .run (wrap64 (S + (us.map (fun u => ops.contribution u i)).sum)) := by
  induction us generalizing S with
  | nil => simp [walk]
  | cons u us ih =>
    simp only [walk]
    cases hu : ops u with
    | none =>
      rw [add_unit_none, ih]
      simp [Operands.missing_at, Operands.contribution, hu]
    | some p =>
      obtain ⟨v, hv⟩ := hr u p hu
      rw [add_unit_run _ _ hv]
      by_cases hna : v = NA_INTEGER
      · simp [hna, walk_na, Operands.missing_at, hu, hv]
      · rw [if_neg hna, wrap64_add_left, ih]
        simp [Operands.missing_at, Operands.contribution, Operands.value, hu, hv, hna,
          add_assoc]

/-! ## One pass and the loop -/

theorem loop_body_eq (x : Sexp) (ops : Operands) (i : Nat) {b : Int}
    (hb : resolved x.dbl i = some b) (hr : Readable ops i) :
    loop_body x (ops .years) (ops .months) (ops .weeks) (ops .days) (ops .hours) (ops .minutes)
      (ops .seconds) i = some (pass_cell x ops i) := by
  have hw := walk_run ops i hr unit_order 0
  have h0 : wrap64 0 = 0 := by decide
  rw [h0] at hw
  have hb2 := hb
  unfold resolved at hb2
  unfold loop_body pass_cell reference_eval
  rw [hb2, hb, accumulate_eq_walk, hw]
  simp only [Option.getD_some]
  by_cases hna : b = r_int64_na
  · simp [hna]
  · simp only [if_neg hna]
    by_cases hm : (unit_order.any (fun u => ops.missing_at u i)) = true
    · simp [hm]
    · simp [hm, wrap64_add_right]

theorem for_loop_eq_map (body : Nat → Option Cell) (g : Nat → Cell) (n : Nat) :
    ∀ i, (∀ k, i ≤ k → k < i + n → body k = some (g k)) →
      for_loop body i n = some ((List.range' i n).map g) := by
  induction n with
  | zero => intro i _; rfl
  | succ n ih =>
    intro i h
    have h1 := h i (Nat.le_refl i) (by omega)
    have h2 := ih (i + 1) (fun k hk1 hk2 => h k (by omega) (by omega))
    simp [for_loop, h1, h2, List.range'_succ]

theorem for_loop_congr (body1 body2 : Nat → Option Cell) (n : Nat) :
    ∀ i, (∀ k, i ≤ k → k < i + n → body1 k = body2 k) →
      for_loop body1 i n = for_loop body2 i n := by
  induction n with
  | zero => intro i _; rfl
  | succ n ih =>
    intro i h
    have h1 := h i (Nat.le_refl i) (by omega)
    have h2 := ih (i + 1) (fun k hk1 hk2 => h k (by omega) (by omega))
    simp [for_loop, h1, h2]

theorem readable_of_wellSized {x : Sexp} {ops : Operands} {size i : Nat}
    (h : WellSized x ops size) (hi : i < size) : Readable ops i :=
  fun u p hu => resolved_of_fits (h.2 u p hu) hi

theorem add_chrono_eq (x : Sexp) (ops : Operands) (size : Nat) (h : WellSized x ops size) :
    add_chrono x ops size = some
      { dbl := (List.range' 0 size).map (pass_cell x ops)
        names := x.names
        klass := civil_classes_posixct
        tzone := x.tzone } := by
  have hl : for_loop (loop_body x (ops .years) (ops .months) (ops .weeks) (ops .days)
      (ops .hours) (ops .minutes) (ops .seconds)) 0 size
        = some ((List.range' 0 size).map (pass_cell x ops)) := by
    apply for_loop_eq_map
    intro k _ hk
    obtain ⟨b, hb⟩ := resolved_of_fits h.1 (show k < size by omega)
    exact loop_body_eq x ops k hb (readable_of_wellSized h (by omega))
  simp [add_chrono, civil_add_chrono_impl, hl, r_get_names, civil_get_tzone]

theorem getElem?_pass_cells (x : Sexp) (ops : Operands) {size i : Nat} (hi : i < size) :
    ((List.range' 0 size).map (pass_cell x ops))[i]? = some (pass_cell x ops i) := by
  simp [List.getElem?_map, List.getElem?_range', hi]

/-! ## Closed forms of a pass -/

theorem wrap64_add_sum (f : Units → Int) (us : List Units) (a : Int) :
    wrap64 (a + (us.map (fun u => wrap64 (f u))).sum) = wrap64 (a + (us.map f).sum) := by
  induction us generalizing a with
  | nil => rfl
  | cons u us ih =>
    simp only [List.map_cons, List.sum_cons]
    rw [← add_assoc, ih, add_assoc, add_comm (wrap64 (f u)), ← add_assoc, wrap64_add_right,
      add_assoc, add_comm _ (f u)]

theorem contribution_eq (ops : Operands) (u : Units) (i : Nat) :
    ops.contribution u i = wrap64 (u.exact_seconds (ops.value u i)) := by
  unfold Operands.contribution Operands.value
  cases ops u with
  | none => simp only [exact_seconds_zero]; decide
  | some p => simp only [to_seconds_eq]

theorem wrap64_contributions (ops : Operands) (i : Nat) (us : List Units) (a : Int) :
    wrap64 (a + (us.map (fun u => ops.contribution u i)).sum)
      = wrap64 (a + exact_sum ops i us) := by
  have h := wrap64_add_sum (fun u => u.exact_seconds (ops.value u i)) us a
  simpa [contribution_eq, exact_sum] using h

theorem any_missing_eq_false {ops : Operands} {i : Nat} (us : List Units)
    (h : ∀ u, ops.missing_at u i = false) :
    us.any (fun u => ops.missing_at u i) = false := by
  simp [h]

theorem pass_cell_of_present {x : Sexp} {ops : Operands} {i : Nat} {b : Int}
    (hb : resolved x.dbl i = some b) (hna : b ≠ r_int64_na)
    (hm : ∀ u, ops.missing_at u i = false) :
    pass_cell x ops i = .count (to_double (wrap64 (b + exact_sum ops i unit_order))) := by
  unfold pass_cell reference_eval
  simp only [hb, Option.getD_some, if_neg hna, any_missing_eq_false unit_order hm,
    wrap64_contributions]
  simp

theorem exact_sum_eq_spec_offset {ops : Operands} {i : Nat}
    (hw : isInt32 (7 * ops.value .weeks i)) :
    exact_sum ops i unit_order = spec_offset ops i := by
  have h7 : wrap32 (ops.value .weeks i * 7) = ops.value .weeks i * 7 := by
    apply wrap32_of_isInt32
    rw [mul_comm]; exact hw
  simp only [exact_sum, unit_order, List.map_cons, List.map_nil, List.sum_cons, List.sum_nil,
    Units.exact_seconds, spec_offset, h7]
  ring

theorem wellSized_only {x : Sexp} {size : Nat} (u : Units) {p : List Int}
    (hx : fits x.dbl size) (hp : fits p size) : WellSized x (only u p) size := by
  refine ⟨hx, ?_⟩
  intro w q hq
  unfold only at hq
  by_cases hwu : w = u
  · simp [hwu] at hq
    exact hq ▸ hp
  · simp [hwu] at hq

theorem wellSized_no_operands {x : Sexp} {size : Nat} (hx : fits x.dbl size) :
    WellSized x no_operands size :=
  ⟨hx, fun _ _ h => by simp [no_operands] at h⟩

theorem mem_unit_order (u : Units) : u ∈ unit_order := by
  cases u <;> simp [unit_order]

theorem pass_cell_of_base_missing {x : Sexp} {ops : Operands} {i : Nat}
    (hb : resolved x.dbl i = some r_int64_na) : pass_cell x ops i = .r_dbl_na := by
  simp [pass_cell, hb]

theorem pass_cell_of_missing {x : Sexp} {ops : Operands} {i : Nat} {u : Units}
    (hu : ops.missing_at u i = true) : pass_cell x ops i = .r_dbl_na := by
  have hany : unit_order.any (fun w => ops.missing_at w i) = true :=
    List.any_eq_true.mpr ⟨u, mem_unit_order u, hu⟩
  unfold pass_cell reference_eval
  simp only [hany, if_true]
  split <;> rfl

theorem resolved_of_lt {p : List Int} {i : Nat} (hi : i < p.length) :
    resolved p i = some (p.get ⟨i, hi⟩) := by
  unfold resolved deref r_is_scalar
  by_cases h1 : p.length = 1
  · have h0 : i = 0 := by omega
    subst h0
    simp [h1, List.getElem?_eq_getElem hi]
  · simp [h1, List.getElem?_eq_getElem hi]

theorem pass_cell_no_operands {x : Sexp} {i : Nat} {b : Int}
    (hb : resolved x.dbl i = some b) (h64 : isInt64 b) :
    pass_cell x no_operands i = instant_cell b := by
  unfold pass_cell reference_eval instant_cell
  simp only [hb, Option.getD_some]
  by_cases hna : b = r_int64_na
  · simp [hna]
  · simp [hna, unit_order, Operands.missing_at, Operands.contribution, no_operands,
      wrap64_of_isInt64 h64]

theorem for_loop_length (body : Nat → Option Cell) (n : Nat) :
    ∀ i out, for_loop body i n = some out → out.length = n := by
  induction n with
  | zero => intro i out h; simp [for_loop] at h; simp [← h]
  | succ n ih =>
    intro i out h
    unfold for_loop at h
    cases hb : body i with
    | none => simp [hb] at h
    | some c =>
      cases hr : for_loop body (i + 1) n with
      | none => simp [hb, hr] at h
      | some cs =>
        simp [hb, hr] at h
        rw [← h, List.length_cons, ih (i + 1) cs hr]

theorem pass_cell_congr {x : Sexp} {ops1 ops2 : Operands} {i : Nat}
    (h : ∀ u, (ops1 u).map (fun p => resolved p i) = (ops2 u).map (fun p => resolved p i)) :
    pass_cell x ops1 i = pass_cell x ops2 i := by
  have hm : ∀ u, ops1.missing_at u i = ops2.missing_at u i := by
    intro u
    have hu := h u
    unfold Operands.missing_at
    cases h1 : ops1 u <;> cases h2 : ops2 u <;> simp [h1, h2] at hu ⊢
    rw [hu]
  have hc : ∀ u, ops1.contribution u i = ops2.contribution u i := by
    intro u
    have hu := h u
    unfold Operands.contribution Operands.value
    cases h1 : ops1 u <;> cases h2 : ops2 u <;> simp [h1, h2] at hu ⊢
    rw [hu]
  unfold pass_cell reference_eval
  simp only [hm, hc]

theorem add_chrono_congr {x : Sexp} {ops1 ops2 : Operands} {size : Nat}
    (h1 : WellSized x ops1 size) (h2 : WellSized x ops2 size)
    (h : ∀ i, i < size → ∀ u,
      (ops1 u).map (fun p => resolved p i) = (ops2 u).map (fun p => resolved p i)) :
    add_chrono x ops1 size = add_chrono x ops2 size := by
  rw [add_chrono_eq x ops1 size h1, add_chrono_eq x ops2 size h2]
  have hl : (List.range' 0 size).map (pass_cell x ops1)
      = (List.range' 0 size).map (pass_cell x ops2) := by
    apply List.map_congr_left
    intro i hi
    rw [List.mem_range'_1] at hi
    exact pass_cell_congr (h i (by omega))
  rw [hl]

theorem fits_take {p : List Int} {size : Nat} (h : fits p size) : fits (p.take size) size := by
  unfold fits at *
  rw [List.length_take]
  omega

theorem resolved_take {p : List Int} {size i : Nat} (h : fits p size) (hi : i < size) :
    resolved (p.take size) i = resolved p i := by
  unfold fits at h
  by_cases h1 : p.length = 1
  · have e : p.take size = p := List.take_of_length_le (by omega)
    rw [e]
  · have hlt : i < p.length := by omega
    have hlt2 : i < (p.take size).length := by rw [List.length_take]; omega
    rw [resolved_of_lt hlt, resolved_of_lt hlt2]
    simp [List.getElem_take]

theorem any_perm {order us : List Units} (hp : order.Perm us) (f : Units → Bool) :
    order.any f = us.any f := by
  rw [Bool.eq_iff_iff, List.any_eq_true, List.any_eq_true]
  constructor
  · rintro ⟨u, hu, hf⟩
    exact ⟨u, hp.mem_iff.mp hu, hf⟩
  · rintro ⟨u, hu, hf⟩
    exact ⟨u, hp.mem_iff.mpr hu, hf⟩

theorem loop_body_in_eq (order : List Units) (x : Sexp) (ops : Operands) (i : Nat) {b : Int}
    (hb : resolved x.dbl i = some b) (hr : Readable ops i) (hp : order.Perm unit_order) :
    loop_body_in order x ops i
      = some (if b = r_int64_na then .r_dbl_na else reference_eval ops b i) := by
  have hw := walk_run ops i hr order 0
  have h0 : wrap64 0 = 0 := by decide
  rw [h0, any_perm hp, (hp.map (fun u => ops.contribution u i)).sum_eq] at hw
  have hb2 := hb
  unfold resolved at hb2
  unfold loop_body_in reference_eval
  rw [hb2, hw]
  by_cases hna : b = r_int64_na
  · simp [hna]
  · simp only [if_neg hna]
    by_cases hm : (unit_order.any (fun u => ops.missing_at u i)) = true
    · simp [hm]
    · simp [hm, wrap64_add_right]

theorem weight_nonneg (u : Units) : 0 ≤ u.weight := by
  cases u <;> decide

theorem weight_sum_nonneg (us : List Units) : 0 ≤ weight_sum us := by
  induction us with
  | nil => decide
  | cons u us ih =>
    have := weight_nonneg u
    simp only [weight_sum, List.map_cons, List.sum_cons] at ih ⊢
    omega

theorem exact_seconds_bound (u : Units) {n : Int} (hn : isInt32 n) :
    -(2147483648 * u.weight) ≤ u.exact_seconds n ∧ u.exact_seconds n ≤ 2147483648 * u.weight := by
  have hw := isInt32_wrap32 (n * 7)
  unfold isInt32 at hn hw
  cases u <;> simp only [Units.exact_seconds, Units.weight] <;> omega

theorem weight_sum_cons (u : Units) (us : List Units) :
    weight_sum (u :: us) = u.weight + weight_sum us := by
  simp [weight_sum]

theorem exact_sum_cons (ops : Operands) (i : Nat) (u : Units) (us : List Units) :
    exact_sum ops i (u :: us) = u.exact_seconds (ops.value u i) + exact_sum ops i us := by
  simp [exact_sum]

theorem trace_bounds (ops : Operands) (i : Nat)
    (hv : ∀ u p, ops u = some p → ∃ n, resolved p i = some n ∧ isInt32 n ∧ n ≠ NA_INTEGER) :
    ∀ (us : List Units) (d B : Int), -B ≤ d → d ≤ B →
      B + 2147483648 * weight_sum us ≤ 9223372036854775807 →
      duration_trace ops i us d = partial_sums ops i us d ∧
      (∀ s ∈ partial_sums ops i us d,
        -(B + 2147483648 * weight_sum us) ≤ s ∧ s ≤ B + 2147483648 * weight_sum us) ∧
      walk ops i us (.run d) = .run (d + exact_sum ops i us) ∧
      -(B + 2147483648 * weight_sum us) ≤ d + exact_sum ops i us ∧
      d + exact_sum ops i us ≤ B + 2147483648 * weight_sum us := by
  intro us
  induction us with
  | nil =>
    intro d B h1 h2 _
    have hE : exact_sum ops i [] = 0 := rfl
    have hW : weight_sum [] = 0 := rfl
    rw [hE, hW]
    refine ⟨rfl, ?_, ?_, ?_, ?_⟩
    · intro s hs; simp [partial_sums] at hs
    · simp [walk]
    · omega
    · omega
  | cons u us ih =>
    intro d B h1 h2 h3
    have hw0 := weight_nonneg u
    have hW0 := weight_sum_nonneg us
    rw [weight_sum_cons] at h3 ⊢
    rw [exact_sum_cons]
    cases hu : ops u with
    | none =>
      obtain ⟨i1, i2, i3, i4, i5⟩ := ih d B h1 h2 (by omega)
      have hval : ops.value u i = 0 := by simp [Operands.value, hu]
      rw [hval, exact_seconds_zero]
      simp only [duration_trace, partial_sums, walk, hu, add_unit_none]
      refine ⟨i1, ?_, ?_, ?_, ?_⟩
      · intro s hs
        have := i2 s hs
        omega
      · rw [i3]; simp
      · omega
      · omega
    | some p =>
      obtain ⟨n, hn, hn32, hna⟩ := hv u p hu
      have hA := exact_seconds_bound u hn32
      have hval : ops.value u i = n := by simp [Operands.value, hu, hn]
      have e1 : wrap64 (d + u.to_seconds n) = d + u.exact_seconds n := by
        rw [to_seconds_eq, wrap64_add_right]
        apply wrap64_of_isInt64
        unfold isInt64
        omega
      obtain ⟨i1, i2, i3, i4, i5⟩ := ih (d + u.exact_seconds n) (B + 2147483648 * u.weight)
        (by omega) (by omega) (by omega)
      rw [hval]
      simp only [duration_trace, partial_sums, walk, hu, hn, add_unit_run _ _ hn, if_neg hna, e1]
      refine ⟨by rw [i1], ?_, ?_, ?_, ?_⟩
      · intro s hs
        rcases List.mem_cons.mp hs with hs | hs
        · subst hs; omega
        · have := i2 s hs
          omega
      · rw [i3, add_assoc]
      · omega
      · omega

theorem for_loop_get (body : Nat → Option Cell) (n : Nat) :
    ∀ i out, for_loop body i n = some out → ∀ k, k < n → out[k]? = body (i + k) := by
  induction n with
  | zero => intro i out _ k hk; omega
  | succ n ih =>
    intro i out h k hk
    unfold for_loop at h
    cases hb : body i with
    | none => simp [hb] at h
    | some c =>
      cases hr : for_loop body (i + 1) n with
      | none => simp [hb, hr] at h
      | some cs =>
        simp [hb, hr] at h
        subst h
        cases k with
        | zero => simp [hb]
        | succ k =>
          have := ih (i + 1) cs hr k (by omega)
          simp only [List.getElem?_cons_succ, this]
          congr 1
          omega

theorem add_unit_congr {op1 op2 : Option (List Int)} {i : Nat}
    (h : op1.map (fun p => resolved p i) = op2.map (fun p => resolved p i))
    (conv : Int → Int) (f : Flow) : add_unit op1 conv i f = add_unit op2 conv i f := by
  cases f with
  | oob => rfl
  | na => rfl
  | run d =>
    cases op1 <;> cases op2 <;> simp [resolved] at h <;> simp [add_unit, h]

theorem loop_body_congr {x1 x2 : Sexp} {ops1 ops2 : Operands} {i : Nat}
    (hb : resolved x1.dbl i = resolved x2.dbl i)
    (h : ∀ u, (ops1 u).map (fun p => resolved p i) = (ops2 u).map (fun p => resolved p i)) :
    loop_body x1 (ops1 .years) (ops1 .months) (ops1 .weeks) (ops1 .days) (ops1 .hours)
        (ops1 .minutes) (ops1 .seconds) i
      = loop_body x2 (ops2 .years) (ops2 .months) (ops2 .weeks) (ops2 .days) (ops2 .hours)
          (ops2 .minutes) (ops2 .seconds) i := by
  unfold resolved at hb
  unfold loop_body accumulate
  rw [hb, add_unit_congr (h .years), add_unit_congr (h .months), add_unit_congr (h .weeks),
    add_unit_congr (h .days), add_unit_congr (h .hours), add_unit_congr (h .minutes),
    add_unit_congr (h .seconds)]

theorem add_chrono_get {x : Sexp} {ops : Operands} {size : Nat} {out : Posixct}
    (h : add_chrono x ops size = some out) {i : Nat} (hi : i < size) :
    out.dbl[i]? = loop_body x (ops .years) (ops .months) (ops .weeks) (ops .days) (ops .hours)
      (ops .minutes) (ops .seconds) i := by
  unfold add_chrono civil_add_chrono_impl at h
  cases hl : for_loop (loop_body x (ops .years) (ops .months) (ops .weeks) (ops .days)
      (ops .hours) (ops .minutes) (ops .seconds)) 0 size with
  | none => simp [hl] at h
  | some cells =>
    simp [hl] at h
    subst h
    have := for_loop_get _ _ _ _ hl i hi
    simpa using this

theorem any_missing_of_not_all {ops : Operands} {i : Nat}
    (h : unit_order.any (fun u => ops.missing_at u i) = true) :
    ∃ u, ops.missing_at u i = true := by
  obtain ⟨u, _, hu⟩ := List.any_eq_true.mp h
  exact ⟨u, hu⟩

theorem pass_cell_cases (x : Sexp) (ops : Operands) (i : Nat) {b : Int}
    (hb : resolved x.dbl i = some b) :
    (pass_cell x ops i = .r_dbl_na ∧ (b = r_int64_na ∨ ∃ u, ops.missing_at u i = true)) ∨
    (b ≠ r_int64_na ∧ (∀ u, ops.missing_at u i = false) ∧
      pass_cell x ops i = .count (to_double (wrap64 (b + exact_sum ops i unit_order)))) := by
  by_cases hna : b = r_int64_na
  · left
    exact ⟨pass_cell_of_base_missing (hna ▸ hb), Or.inl hna⟩
  · by_cases hm : ∃ u, ops.missing_at u i = true
    · obtain ⟨u, hu⟩ := hm
      left
      exact ⟨pass_cell_of_missing hu, Or.inr ⟨u, hu⟩⟩
    · right
      have hm2 : ∀ u, ops.missing_at u i = false := by
        intro u
        cases hu : ops.missing_at u i
        · rfl
        · exact absurd ⟨u, hu⟩ hm
      exact ⟨hna, hm2, pass_cell_of_present hb hna hm2⟩

theorem mul7_emod_ne_zero (w : Int) (h1 : -2147483648 < w) (h2 : w ≤ 2147483647) :
    (w * 7 + 2147483648) % 4294967296 ≠ 0 := by
  intro h
  have hd : (4294967296 : Int) ∣ w * 7 + 2147483648 := Int.dvd_of_emod_eq_zero h
  clear h
  obtain ⟨q, hq⟩ := hd
  have hc : q = -3 ∨ q = -2 ∨ q = -1 ∨ q = 0 ∨ q = 1 ∨ q = 2 ∨ q = 3 := by omega
  rcases hc with hc | hc | hc | hc | hc | hc | hc <;> subst hc <;> omega

theorem wrap32_mul7_ne_NA {w : Int} (hw : isInt32 w) (hna : w ≠ NA_INTEGER) :
    wrap32 (w * 7) ≠ NA_INTEGER := by
  have h1 : -2147483648 < w := by
    have := hw.1
    have h3 : w ≠ -2147483648 := hna
    omega
  have k := mul7_emod_ne_zero w h1 hw.2
  intro h
  apply k
  have h4 : (w * 7 + 2147483648) % 4294967296 - 2147483648 = -2147483648 := h
  linarith

theorem pass_cell_congr_base {x1 x2 : Sexp} (ops : Operands) {i : Nat}
    (h : resolved x1.dbl i = resolved x2.dbl i) : pass_cell x1 ops i = pass_cell x2 ops i := by
  unfold pass_cell
  rw [h]

/-! ## Chained calls -/

theorem add_chrono_eq_pass_output (x : Sexp) (ops : Operands) (size : Nat)
    (h : WellSized x ops size) : add_chrono x ops size = some (pass_output x ops size) :=
  add_chrono_eq x ops size h

theorem getElem?_pass_output (x : Sexp) (ops : Operands) {size i : Nat} (hi : i < size) :
    (pass_output x ops size).dbl[i]? = some (pass_cell x ops i) :=
  getElem?_pass_cells x ops hi

theorem wellSized_as_base (x : Sexp) (ops ops2 : Operands) (size : Nat)
    (h : ∀ u p, ops2 u = some p → fits p size) :
    WellSized (pass_output x ops size).as_base ops2 size :=
  ⟨Or.inr (by simp [Posixct.as_base, pass_output]), h⟩

theorem resolved_as_base (x : Sexp) (ops : Operands) {size i : Nat} (hi : i < size) :
    resolved (pass_output x ops size).as_base.dbl i = some (as_int64 (pass_cell x ops i)) := by
  have hlen : i < (pass_output x ops size).as_base.dbl.length := by
    simp [Posixct.as_base, pass_output, hi]
  rw [resolved_of_lt hlen]
  simp [Posixct.as_base, pass_output]

theorem as_int64_count {c : Int} (h : isInt64 c) : as_int64 (.count c) = c := by
  simp [as_int64, h]

theorem chain_cell (x : Sexp) (ops1 ops2 : Operands) {size i : Nat} (hi : i < size) {b : Int}
    (hb : resolved x.dbl i = some b) (hbna : b ≠ r_int64_na)
    (hm1 : ∀ u, ops1.missing_at u i = false) (hm2 : ∀ u, ops2.missing_at u i = false)
    (hex : to_double (wrap64 (b + exact_sum ops1 i unit_order))
      = wrap64 (b + exact_sum ops1 i unit_order))
    (hc : wrap64 (b + exact_sum ops1 i unit_order) ≠ r_int64_na) :
    pass_cell (pass_output x ops1 size).as_base ops2 i
      = .count (to_double
          (wrap64 (b + exact_sum ops1 i unit_order + exact_sum ops2 i unit_order))) := by
  have h1 : resolved (pass_output x ops1 size).as_base.dbl i
      = some (wrap64 (b + exact_sum ops1 i unit_order)) := by
    rw [resolved_as_base x ops1 hi, pass_cell_of_present hb hbna hm1, hex,
      as_int64_count (isInt64_wrap64 _)]
  rw [pass_cell_of_present h1 hc hm2, wrap64_add_left]

theorem resolved_map (f : Int → Int) (p : List Int) (i : Nat) :
    resolved (p.map f) i = (resolved p i).map f := by
  unfold resolved deref r_is_scalar
  by_cases h1 : p.length = 1 <;> simp [h1, List.getElem?_map]

theorem wrap32_neg {z : Int} (h : wrap32 z ≠ -2147483648) : wrap32 (-z) = -wrap32 z := by
  unfold wrap32 at *
  omega

theorem exact_seconds_neg (u : Units) {n : Int} (h : wrap32 (n * 7) ≠ NA_INTEGER) :
    u.exact_seconds (-n) = -u.exact_seconds n := by
  cases u
  case weeks =>
    have e : -n * 7 = -(n * 7) := by ring
    simp only [Units.exact_seconds]
    rw [e, wrap32_neg h]
    ring
  all_goals (simp only [Units.exact_seconds]; try ring)

theorem value_negated (ops : Operands) (u : Units) (i : Nat) :
    (negated ops).value u i = -ops.value u i := by
  unfold Operands.value negated
  cases ops u with
  | none => simp
  | some p =>
    simp only [Option.map_some', resolved_map]
    cases resolved p i <;> simp

theorem fits_negated {ops : Operands} {size : Nat} (h : ∀ u p, ops u = some p → fits p size) :
    ∀ u p, (negated ops) u = some p → fits p size := by
  intro u q hq
  unfold negated at hq
  cases hu : ops u with
  | none => simp [hu] at hq
  | some p =>
    simp [hu] at hq
    have := h u p hu
    unfold fits at *
    rw [← hq, List.length_map]
    exact this

theorem missing_negated {ops : Operands} {i : Nat}
    (hv : ∀ u p, ops u = some p → ∃ n, resolved p i = some n ∧ isInt32 n ∧ n ≠ NA_INTEGER)
    (u : Units) : (negated ops).missing_at u i = false := by
  unfold Operands.missing_at negated
  cases hu : ops u with
  | none => simp
  | some p =>
    obtain ⟨n, hn, hn32, _⟩ := hv u p hu
    unfold isInt32 at hn32
    simp only [Option.map_some', resolved_map, hn, beq_eq_false_iff_ne, ne_eq,
      Option.some.injEq]
    unfold NA_INTEGER
    omega

theorem missing_of_values {ops : Operands} {i : Nat}
    (hv : ∀ u p, ops u = some p → ∃ n, resolved p i = some n ∧ isInt32 n ∧ n ≠ NA_INTEGER)
    (u : Units) : ops.missing_at u i = false := by
  unfold Operands.missing_at
  cases hu : ops u with
  | none => rfl
  | some p =>
    obtain ⟨n, hn, _, hna⟩ := hv u p hu
    simp [hn, hna]

theorem exact_sum_negated {ops : Operands} {i : Nat}
    (hv : ∀ u p, ops u = some p → ∃ n, resolved p i = some n ∧ isInt32 n ∧ n ≠ NA_INTEGER)
    (us : List Units) : exact_sum (negated ops) i us = -exact_sum ops i us := by
  induction us with
  | nil => rfl
  | cons u us ih =>
    rw [exact_sum_cons, exact_sum_cons, ih, value_negated]
    have hu : wrap32 (ops.value u i * 7) ≠ NA_INTEGER := by
      unfold Operands.value
      cases hop : ops u with
      | none =>
        show wrap32 ((0 : Int) * 7) ≠ NA_INTEGER
        decide
      | some p =>
        obtain ⟨n, hn, hn32, hna⟩ := hv u p hop
        simp only [hn, Option.getD_some]
        exact wrap32_mul7_ne_NA hn32 hna
    rw [exact_seconds_neg u hu]
    ring

theorem missing_merged {opsA opsB : Operands} {i : Nat}
    (hA : ∀ u, opsA.missing_at u i = false) (hB : ∀ u, opsB.missing_at u i = false)
    (u : Units) : (merged opsA opsB).missing_at u i = false := by
  have h1 := hA u
  have h2 := hB u
  unfold Operands.missing_at merged at *
  cases hu : opsA u with
  | none => simpa [hu] using h2
  | some p => simpa [hu] using h1

theorem fits_merged {opsA opsB : Operands} {size : Nat}
    (hA : ∀ u p, opsA u = some p → fits p size) (hB : ∀ u p, opsB u = some p → fits p size) :
    ∀ u p, (merged opsA opsB) u = some p → fits p size := by
  intro u q hq
  unfold merged at hq
  cases hu : opsA u with
  | none =>
    simp only [hu] at hq
    exact hB u q hq
  | some p =>
    simp only [hu, Option.some.injEq] at hq
    exact hq ▸ hA u p hu

theorem exact_sum_merged {opsA opsB : Operands} (i : Nat)
    (hd : ∀ u, opsA u = none ∨ opsB u = none) (us : List Units) :
    exact_sum (merged opsA opsB) i us = exact_sum opsA i us + exact_sum opsB i us := by
  induction us with
  | nil => rfl
  | cons u us ih =>
    rw [exact_sum_cons, exact_sum_cons, exact_sum_cons, ih]
    have hu : u.exact_seconds ((merged opsA opsB).value u i)
        = u.exact_seconds (opsA.value u i) + u.exact_seconds (opsB.value u i) := by
      unfold Operands.value merged
      cases hA : opsA u with
      | none => simp [exact_seconds_zero]
      | some p =>
        have hB : opsB u = none := by
          rcases hd u with h | h
          · rw [hA] at h; cases h
          · exact h
        simp [hB, exact_seconds_zero]
    rw [hu]
    ring

theorem merged_comm {opsA opsB : Operands} (hd : ∀ u, opsA u = none ∨ opsB u = none) :
    merged opsB opsA = merged opsA opsB := by
  funext u
  unfold merged
  rcases hd u with h | h
  · rw [h]; cases opsB u <;> rfl
  · rw [h]; cases opsA u <;> rfl

theorem exact_sum_bounds (ops : Operands) (i : Nat)
    (hv : ∀ u p, ops u = some p → ∃ n, resolved p i = some n ∧ isInt32 n ∧ n ≠ NA_INTEGER) :
    -73794322046124032 ≤ exact_sum ops i unit_order ∧
      exact_sum ops i unit_order ≤ 73794322046124032 := by
  have hW : weight_sum unit_order = 34363159 := by decide
  obtain ⟨_, _, _, i4, i5⟩ := trace_bounds ops i hv unit_order 0 0 (by omega) (by omega)
    (by rw [hW]; omega)
  rw [hW] at i4 i5
  omega

theorem stored_exactly {s : Int} (h1 : -9007199254740992 ≤ s) (h2 : s ≤ 9007199254740992) :
    to_double (wrap64 s) = s ∧ wrap64 s = s ∧ s ≠ r_int64_na := by
  have h64 : isInt64 s := by
    unfold isInt64
    omega
  refine ⟨?_, wrap64_of_isInt64 h64, ?_⟩
  · rw [wrap64_of_isInt64 h64, to_double_of_small h1 h2]
  · unfold r_int64_na
    omega

/-! ## The claims -/

/-- C1, the claim refuted: the base instant 2^53 is not missing, the seconds value 1 is not
missing, no weeks operand is present and the sum 2^53 + 1 fits in 64 bits; the output cell is the
double nearest to the sum, 9007199254740992, and not the sum 9007199254740993. -/
theorem civil_add_chrono_value_rounds :
    (9007199254740992 : Int) ≠ r_int64_na ∧ (1 : Int) ≠ NA_INTEGER ∧
    (9007199254740992 : Int) + spec_offset (only .seconds [1]) 0 = 9007199254740993 ∧
    isInt64 9007199254740993 ∧
    add_chrono ⟨[9007199254740992], none, none⟩ (only .seconds [1]) 1
      = some ⟨[.count 9007199254740992], none, civil_classes_posixct, none⟩ ∧
    Cell.count 9007199254740992 ≠ Cell.count 9007199254740993 := by
  decide

/-- C1, amended: in a call whose base and present operands can be read at every index, the call
returns, and at every index `i < size` where the base instant is not missing, no present operand
is missing and 7 * weeks fits in 32 bits, the output cell is the double nearest to
base + 31556952*years + 2629746*months + 604800*weeks + 86400*days + 3600*hours + 60*minutes
+ seconds, an absent unit counting 0 and the sum taken in 64 bits; it is the double nearest to
the sum itself when the sum fits in 64 bits, and it is the sum itself when the magnitude of the
sum is at most 2^53. -/
theorem civil_add_chrono_value (x : Sexp) (ops : Operands) (size : Nat)
    (h : WellSized x ops size) :
    ∃ out, add_chrono x ops size = some out ∧
      ∀ i b, i < size → resolved x.dbl i = some b → b ≠ r_int64_na →
        (∀ u, ops.missing_at u i = false) → isInt32 (7 * ops.value .weeks i) →
          out.dbl[i]? = some (.count (to_double (wrap64 (b + spec_offset ops i)))) ∧
          (isInt64 (b + spec_offset ops i) →
            out.dbl[i]? = some (.count (to_double (b + spec_offset ops i)))) ∧
          (-9007199254740992 ≤ b + spec_offset ops i →
            b + spec_offset ops i ≤ 9007199254740992 →
              out.dbl[i]? = some (.count (b + spec_offset ops i))) := by
  refine ⟨_, add_chrono_eq x ops size h, ?_⟩
  intro i b hi hb hna hm hw
  have hc : ((List.range' 0 size).map (pass_cell x ops))[i]?
      = some (.count (to_double (wrap64 (b + spec_offset ops i)))) := by
    rw [getElem?_pass_cells x ops hi, pass_cell_of_present hb hna hm,
      exact_sum_eq_spec_offset hw]
  refine ⟨hc, fun h64 => ?_, fun h1 h2 => ?_⟩
  · rw [hc, wrap64_of_isInt64 h64]
  · rw [hc, (stored_exactly h1 h2).1]

/-- C1, amended, at the inputs of the specification: base=[0] with years=[1] gives [31556952],
and base=[0] with weeks=[2], days=[3] gives [1468800]. -/
theorem civil_add_chrono_value_witness :
    (∃ out, add_chrono ⟨[0], none, none⟩ (only .years [1]) 1 = some out ∧
      out.dbl[0]? = some (.count 31556952)) ∧
    (∃ out, add_chrono ⟨[0], none, none⟩
        (fun u => if u = .weeks then some [2] else if u = .days then some [3] else none) 1
          = some out ∧
      out.dbl[0]? = some (.count 1468800)) := by
  constructor
  · obtain ⟨out, ho, hv⟩ := civil_add_chrono_value ⟨[0], none, none⟩ (only .years [1]) 1
      (wellSized_only .years (by decide) (by decide))
    refine ⟨out, ho, ?_⟩
    have h := (hv 0 0 (by decide) (by decide) (by decide) (by intro u; cases u <;> decide)
      (by decide)).2.2 (by decide) (by decide)
    have e : (0 : Int) + spec_offset (only .years [1]) 0 = 31556952 := by decide
    rw [e] at h
    exact h
  · obtain ⟨out, ho, hv⟩ := civil_add_chrono_value ⟨[0], none, none⟩
      (fun u => if u = .weeks then some [2] else if u = .days then some [3] else none) 1
      ⟨by decide, by intro u p hu; cases u <;> simp at hu <;> subst hu <;> decide⟩
    refine ⟨out, ho, ?_⟩
    have h := (hv 0 0 (by decide) (by decide) (by decide) (by intro u; cases u <;> decide)
      (by decide)).2.2 (by decide) (by decide)
    have e : (0 : Int) + spec_offset
        (fun u => if u = .weeks then some [2] else if u = .days then some [3] else none) 0
          = 1468800 := by decide
    rw [e] at h
    exact h

/-- C2: in a call whose base and present operands can be read at every index, the call returns,
and at every index `i < size` the output cell is missing when the base instant is missing there,
and is missing when some present operand resolves to `NA_INTEGER` there, whatever the other
operands are. -/
theorem civil_add_chrono_missing (x : Sexp) (ops : Operands) (size : Nat)
    (h : WellSized x ops size) :
    ∃ out, add_chrono x ops size = some out ∧
      ∀ i, i < size →
        (resolved x.dbl i = some r_int64_na → out.dbl[i]? = some .r_dbl_na) ∧
        (∀ u, ops.missing_at u i = true → out.dbl[i]? = some .r_dbl_na) := by
  refine ⟨_, add_chrono_eq x ops size h, ?_⟩
  intro i hi
  constructor
  · intro hb
    show ((List.range' 0 size).map (pass_cell x ops))[i]? = _
    rw [getElem?_pass_cells x ops hi, pass_cell_of_base_missing hb]
  · intro u hu
    show ((List.range' 0 size).map (pass_cell x ops))[i]? = _
    rw [getElem?_pass_cells x ops hi, pass_cell_of_missing hu]

/-- C2, at the inputs of the specification: base=[0, NA] with years=[1, 1] gives [31556952, NA],
and base=[1000000000] with months=[NA] gives [NA]. -/
theorem civil_add_chrono_missing_witness :
    (∃ out, add_chrono ⟨[0, r_int64_na], none, none⟩ (only .years [1, 1]) 2 = some out ∧
      out.dbl[1]? = some .r_dbl_na ∧ out.dbl = [.count 31556952, .r_dbl_na]) ∧
    (∃ out, add_chrono ⟨[1000000000], none, none⟩ (only .months [NA_INTEGER]) 1 = some out ∧
      out.dbl[0]? = some .r_dbl_na ∧ out.dbl = [.r_dbl_na]) := by
  constructor
  · obtain ⟨out, ho, hv⟩ := civil_add_chrono_missing ⟨[0, r_int64_na], none, none⟩
      (only .years [1, 1]) 2 (wellSized_only .years (by decide) (by decide))
    refine ⟨out, ho, (hv 1 (by decide)).1 (by decide), ?_⟩
    have e : add_chrono ⟨[0, r_int64_na], none, none⟩ (only .years [1, 1]) 2
        = some ⟨[.count 31556952, .r_dbl_na], none, civil_classes_posixct, none⟩ := by decide
    rw [e] at ho
    cases ho
    rfl
  · obtain ⟨out, ho, hv⟩ := civil_add_chrono_missing ⟨[1000000000], none, none⟩
      (only .months [NA_INTEGER]) 1 (wellSized_only .months (by decide) (by decide))
    refine ⟨out, ho, (hv 0 (by decide)).2 .months (by decide), ?_⟩
    have e : add_chrono ⟨[1000000000], none, none⟩ (only .months [NA_INTEGER]) 1
        = some ⟨[.r_dbl_na], none, civil_classes_posixct, none⟩ := by decide
    rw [e] at ho
    cases ho
    rfl

/-- C3, the claim refuted: with the output length 2 and a years operand of 3 cells, a length that
is neither 1 nor 2, the call does not fail: it returns an output, computed from the first two
cells of the operand. -/
theorem civil_add_chrono_no_length_check :
    ([1, 1, 4] : List Int).length ≠ 1 ∧ ([1, 1, 4] : List Int).length ≠ 2 ∧
    civil_add_chrono_impl ⟨[0, 5], none, none⟩ (some [1, 1, 4]) none none none none none none 2
      = some ⟨[.count 31556952, .count 31556957], none, civil_classes_posixct, none⟩ := by
  decide

/-- C3, amended: the function checks no length and has no length failure. In every call whose
base and present operands have one cell or at least `size` cells, the call returns an output of
exactly `size` cells, and a longer operand is read on its first `size` cells only: the output is
the one of the call with every operand cut to its first `size` cells. -/
theorem civil_add_chrono_lengths (x : Sexp) (ops : Operands) (size : Nat)
    (h : WellSized x ops size) :
    ∃ out, add_chrono x ops size = some out ∧ out.dbl.length = size ∧
      add_chrono x (fun u => (ops u).map (List.take size)) size = some out := by
  have hcut : WellSized x (fun u => (ops u).map (List.take size)) size := by
    refine ⟨h.1, ?_⟩
    intro u q hq
    cases hu : ops u with
    | none => simp [hu] at hq
    | some p =>
      simp [hu] at hq
      exact hq ▸ fits_take (h.2 u p hu)
  have hsame : add_chrono x (fun u => (ops u).map (List.take size)) size
      = add_chrono x ops size := by
    apply add_chrono_congr hcut h
    intro i hi u
    cases hu : ops u with
    | none => simp
    | some p => simp [resolved_take (h.2 u p hu) hi]
  refine ⟨_, add_chrono_eq x ops size h, by simp, ?_⟩
  rw [hsame, add_chrono_eq x ops size h]

/-- C3, amended, at the input of the specification: the output length 2 with a years operand of
3 cells gives the output of the years operand cut to 2 cells. -/
theorem civil_add_chrono_lengths_witness :
    ∃ out, add_chrono ⟨[0, 5], none, none⟩ (only .years [1, 1, 4]) 2 = some out ∧
      out.dbl.length = 2 ∧
      add_chrono ⟨[0, 5], none, none⟩ (fun u => (only .years [1, 1, 4] u).map (List.take 2)) 2
        = some out :=
  civil_add_chrono_lengths ⟨[0, 5], none, none⟩ (only .years [1, 1, 4]) 2
    (wellSized_only .years (by decide) (by decide))

/-- C4: with all seven operands absent and every base cell a 64-bit count, the output equals the
base cell for cell: an instant that is not missing comes back as the double of its count, the
missing instant comes back as the missing marker; names and zone tag are those of the base. When
every base cell is a count that a double holds, as the cells read from a double vector are, every
instant that is not missing comes back unchanged. -/
theorem civil_add_chrono_identity (x : Sexp) (hx : ∀ b ∈ x.dbl, isInt64 b) :
    add_chrono x no_operands x.dbl.length = some
      { dbl := x.dbl.map instant_cell
        names := x.names
        klass := civil_classes_posixct
        tzone := x.tzone } ∧
    ((∀ b ∈ x.dbl, to_double b = b) →
      add_chrono x no_operands x.dbl.length = some
        { dbl := x.dbl.map (fun b => if b = r_int64_na then .r_dbl_na else .count b)
          names := x.names
          klass := civil_classes_posixct
          tzone := x.tzone }) := by
  have hws : WellSized x no_operands x.dbl.length := wellSized_no_operands (Or.inr (Nat.le_refl _))
  have hl : (List.range' 0 x.dbl.length).map (pass_cell x no_operands)
      = x.dbl.map instant_cell := by
    apply List.ext_getElem?
    intro i
    by_cases hi : i < x.dbl.length
    · rw [getElem?_pass_cells x no_operands hi,
        pass_cell_no_operands (resolved_of_lt hi) (hx _ (List.get_mem _ _ _))]
      simp [List.getElem?_map, List.getElem?_eq_getElem hi]
    · have h1 : ((List.range' 0 x.dbl.length).map (pass_cell x no_operands))[i]? = none := by
        apply List.getElem?_eq_none
        simp
        omega
      have h2 : (x.dbl.map instant_cell)[i]? = none := by
        apply List.getElem?_eq_none
        simp
        omega
      rw [h1, h2]
  have h1 : add_chrono x no_operands x.dbl.length = some
      { dbl := x.dbl.map instant_cell
        names := x.names
        klass := civil_classes_posixct
        tzone := x.tzone } := by
    rw [add_chrono_eq x no_operands _ hws, hl]
  refine ⟨h1, fun hrep => ?_⟩
  rw [h1]
  have hm : x.dbl.map instant_cell
      = x.dbl.map (fun b => if b = r_int64_na then .r_dbl_na else .count b) := by
    apply List.map_congr_left
    intro b hb
    unfold instant_cell
    rw [hrep b hb]
  rw [hm]

/-- C4, at a base of three cells with a missing one in the middle. -/
theorem civil_add_chrono_identity_witness :
    add_chrono ⟨[5, r_int64_na, -7], some ["a", "b", "c"], some ["UTC"]⟩ no_operands 3
      = some ⟨[.count 5, .r_dbl_na, .count (-7)], some ["a", "b", "c"], civil_classes_posixct,
          some ["UTC"]⟩ :=
  (civil_add_chrono_identity ⟨[5, r_int64_na, -7], some ["a", "b", "c"], some ["UTC"]⟩
    (by decide)).1

/-- C5: for every unit `u` and every value `v` (the missing marker included), in a call whose
base and other operands can be read at every index, giving the operand `u` as the scalar `[v]`
and giving it as `size` repetitions of `v` both return, and return the same output. -/
theorem civil_add_chrono_broadcast (x : Sexp) (ops : Operands) (size : Nat) (u : Units)
    (v : Int) (hx : fits x.dbl size)
    (hops : ∀ w p, w ≠ u → ops w = some p → fits p size) :
    ∃ out, add_chrono x (Function.update ops u (some [v])) size = some out ∧
      add_chrono x (Function.update ops u (some (List.replicate size v))) size = some out := by
  have h1 : WellSized x (Function.update ops u (some [v])) size := by
    refine ⟨hx, ?_⟩
    intro w p hw
    by_cases hwu : w = u
    · subst hwu
      simp at hw
      exact hw ▸ Or.inl rfl
    · rw [Function.update_noteq hwu] at hw
      exact hops w p hwu hw
  have h2 : WellSized x (Function.update ops u (some (List.replicate size v))) size := by
    refine ⟨hx, ?_⟩
    intro w p hw
    by_cases hwu : w = u
    · subst hwu
      simp at hw
      exact hw ▸ Or.inr (by simp)
    · rw [Function.update_noteq hwu] at hw
      exact hops w p hwu hw
  refine ⟨_, add_chrono_eq x _ size h1, ?_⟩
  rw [← add_chrono_eq x _ size h1]
  apply add_chrono_congr h2 h1
  intro i hi w
  by_cases hwu : w = u
  · subst hwu
    simp [resolved_singleton, resolved_replicate v hi]
  · simp [Function.update_noteq hwu]

/-- C5, at a base of three cells with a days operand beside the hours operand that is given as
the scalar [2] and as [2, 2, 2]. -/
theorem civil_add_chrono_broadcast_witness :
    ∃ out, add_chrono ⟨[0, r_int64_na, 10], none, none⟩
        (Function.update (only .days [1, 2, 3]) .hours (some [2])) 3 = some out ∧
      add_chrono ⟨[0, r_int64_na, 10], none, none⟩
        (Function.update (only .days [1, 2, 3]) .hours (some (List.replicate 3 2))) 3
          = some out ∧
      out.dbl = [.count 93600, .r_dbl_na, .count 266410] := by
  obtain ⟨out, h1, h2⟩ := civil_add_chrono_broadcast ⟨[0, r_int64_na, 10], none, none⟩
    (only .days [1, 2, 3]) 3 .hours 2 (by decide)
    (by intro w p _ hw; cases w <;> simp [only] at hw; subst hw; decide)
  refine ⟨out, h1, h2, ?_⟩
  have e : add_chrono ⟨[0, r_int64_na, 10], none, none⟩
      (Function.update (only .days [1, 2, 3]) .hours (some [2])) 3
        = some ⟨[.count 93600, .r_dbl_na, .count 266410], none, civil_classes_posixct, none⟩ := by
    decide
  rw [e] at h1
  cases h1
  rfl

/-- C6, the code at the failing input: base=[0] with weeks=[306783379], a weeks value that is
not missing. The multiplication by 7 leaves the 32-bit range and the output is
-185542586755200, where the exact conversion is 604800 * 306783379 = 185542587619200. -/
theorem civil_add_chrono_weeks_overflow :
    isInt32 306783379 ∧ (306783379 : Int) ≠ NA_INTEGER ∧
    isInt64 (0 + 604800 * 306783379) ∧
    civil_add_chrono_impl ⟨[0], none, none⟩ none none (some [306783379]) none none none none 1
      = some ⟨[.count (-185542586755200)], none, civil_classes_posixct, none⟩ ∧
    (0 + 604800 * 306783379 : Int) = 185542587619200 := by
  decide

/-- C7: for every `k` such that `k` and `12 * k` are 32-bit values other than the missing marker,
in a call whose base can be read at every index, the call with months=[12 * k] alone and the
call with years=[k] alone both return, and return the same output. -/
theorem civil_add_chrono_year_month (x : Sexp) (size : Nat) (k : Int) (hx : fits x.dbl size)
    (_hk : isInt32 k) (_hk12 : isInt32 (12 * k)) (hna : k ≠ NA_INTEGER)
    (hna12 : 12 * k ≠ NA_INTEGER) :
    ∃ out, add_chrono x (only .months [12 * k]) size = some out ∧
      add_chrono x (only .years [k]) size = some out := by
  have h1 : WellSized x (only .months [12 * k]) size := wellSized_only .months hx (Or.inl rfl)
  have h2 : WellSized x (only .years [k]) size := wellSized_only .years hx (Or.inl rfl)
  refine ⟨_, add_chrono_eq x _ size h1, ?_⟩
  rw [add_chrono_eq x _ size h2]
  have hl : (List.range' 0 size).map (pass_cell x (only .years [k]))
      = (List.range' 0 size).map (pass_cell x (only .months [12 * k])) := by
    apply List.map_congr_left
    intro i _
    have e : k * 31556952 = 12 * k * 2629746 := by ring
    unfold pass_cell reference_eval
    simp [unit_order, Operands.missing_at, Operands.contribution, Operands.value, only,
      resolved_singleton, Units.to_seconds, years_to_seconds, months_to_seconds, hna, hna12, e]
  rw [hl]

/-- C7, at the input of the specification: base=[0] with months=[12] gives [31556952], the same
as years=[1]. -/
theorem civil_add_chrono_year_month_witness :
    ∃ out, add_chrono ⟨[0], none, none⟩ (only .months [12 * 1]) 1 = some out ∧
      add_chrono ⟨[0], none, none⟩ (only .years [1]) 1 = some out ∧
      out.dbl = [.count 31556952] := by
  obtain ⟨out, h1, h2⟩ := civil_add_chrono_year_month ⟨[0], none, none⟩ 1 1 (by decide)
    (by decide) (by decide) (by decide) (by decide)
  refine ⟨out, h1, h2, ?_⟩
  have e : add_chrono ⟨[0], none, none⟩ (only .years [1]) 1
      = some ⟨[.count 31556952], none, civil_classes_posixct, none⟩ := by decide
  rw [e] at h2
  cases h2
  rfl

/-- C8: every call that returns gives an output of exactly `size` cells whose element names are
those of the base and whose zone tag is that of the base, whatever the operands and the missing
cells are; and the call returns whenever its base and present operands can be read at every
index. -/
theorem civil_add_chrono_metadata (x : Sexp) (ops : Operands) (size : Nat) :
    (∀ out, add_chrono x ops size = some out →
      out.dbl.length = size ∧ out.names = x.names ∧ out.tzone = x.tzone) ∧
    (WellSized x ops size → ∃ out, add_chrono x ops size = some out) := by
  constructor
  · intro out h
    unfold add_chrono civil_add_chrono_impl at h
    cases hl : for_loop (loop_body x (ops .years) (ops .months) (ops .weeks) (ops .days)
        (ops .hours) (ops .minutes) (ops .seconds)) 0 size with
    | none => simp [hl] at h
    | some cells =>
      simp [hl] at h
      subst h
      exact ⟨for_loop_length _ _ _ _ hl, rfl, rfl⟩
  · intro h
    exact ⟨_, add_chrono_eq x ops size h⟩

/-- C9: at an index where the base and every present operand can be read, the pass of the code,
which takes the units in the order years, months, weeks, days, hours, minutes, seconds and
leaves at the first missing one, writes what the reference evaluator gives, which inspects every
present unit; and the pass that takes the units in any other order writes the same cell. -/
theorem short_circuit_unobservable (x : Sexp) (ops : Operands) (i : Nat) (order : List Units)
    (b : Int) (hb : resolved x.dbl i = some b) (hr : Readable ops i)
    (hp : order.Perm unit_order) :
    loop_body x (ops .years) (ops .months) (ops .weeks) (ops .days) (ops .hours) (ops .minutes)
        (ops .seconds) i
      = some (if b = r_int64_na then .r_dbl_na else reference_eval ops b i) ∧
    loop_body_in order x ops i
      = loop_body x (ops .years) (ops .months) (ops .weeks) (ops .days) (ops .hours)
          (ops .minutes) (ops .seconds) i := by
  have h1 : loop_body x (ops .years) (ops .months) (ops .weeks) (ops .days) (ops .hours)
      (ops .minutes) (ops .seconds) i
        = some (if b = r_int64_na then .r_dbl_na else reference_eval ops b i) :=
    loop_body_in_eq unit_order x ops i hb hr (List.Perm.refl _)
  exact ⟨h1, by rw [h1, loop_body_in_eq order x ops i hb hr hp]⟩

/-- C9, at a pass that leaves at the missing years cell before the seconds block, against the
pass in the reverse order, which inspects the seconds first. -/
theorem short_circuit_unobservable_witness :
    loop_body ⟨[100, 200], none, none⟩ (some [NA_INTEGER, 1]) none none none none none (some [5])
        0 = some .r_dbl_na ∧
    loop_body_in unit_order.reverse ⟨[100, 200], none, none⟩
        (fun u => if u = .years then some [NA_INTEGER, 1] else
          if u = .seconds then some [5] else none) 0 = some .r_dbl_na := by
  have h := short_circuit_unobservable ⟨[100, 200], none, none⟩
    (fun u => if u = .years then some [NA_INTEGER, 1] else
      if u = .seconds then some [5] else none) 0 unit_order.reverse 100 (by decide)
    (by intro u p hu; cases u <;> simp at hu <;> subst hu <;> exact ⟨_, rfl⟩)
    (List.reverse_perm unit_order)
  have e : (if (100 : Int) = r_int64_na then Cell.r_dbl_na else reference_eval
      (fun u => if u = .years then some [NA_INTEGER, 1] else
        if u = .seconds then some [5] else none) 100 0) = .r_dbl_na := by decide
  rw [e] at h
  exact ⟨h.1, h.2.trans h.1⟩

/-- C10: when every present operand resolves at the index `i` to a 32-bit value that is not the
missing marker, whatever subset of the seven operands is present, the values `duration` takes in
64 bits are the partial sums of exact arithmetic, each of magnitude below 2^57: no addition
wraps. The pass ends with the exact offset, of magnitude below 2^57, and for every base with
|base| <= 2^62 the addition base + offset stays in the 64-bit range. -/
theorem offset_no_overflow (ops : Operands) (i : Nat)
    (hv : ∀ u p, ops u = some p → ∃ n, resolved p i = some n ∧ isInt32 n ∧ n ≠ NA_INTEGER) :
    duration_trace ops i unit_order 0 = partial_sums ops i unit_order 0 ∧
    (∀ s ∈ partial_sums ops i unit_order 0,
      -144115188075855872 < s ∧ s < 144115188075855872) ∧
    ∃ d, accumulate (ops .years) (ops .months) (ops .weeks) (ops .days) (ops .hours)
        (ops .minutes) (ops .seconds) i = .run d ∧
      d = exact_sum ops i unit_order ∧
      -144115188075855872 < d ∧ d < 144115188075855872 ∧
      ∀ b : Int, -4611686018427387904 ≤ b → b ≤ 4611686018427387904 →
        isInt64 (b + d) ∧ wrap64 (b + d) = b + d := by
  have hW : weight_sum unit_order = 34363159 := by decide
  obtain ⟨i1, i2, i3, i4, i5⟩ := trace_bounds ops i hv unit_order 0 0 (by omega) (by omega)
    (by rw [hW]; omega)
  rw [hW] at i2 i4 i5
  refine ⟨i1, ?_, exact_sum ops i unit_order, ?_, rfl, by omega, by omega, ?_⟩
  · intro s hs
    have := i2 s hs
    omega
  · rw [accumulate_eq_walk, i3, zero_add]
  · intro b hb1 hb2
    have h64 : isInt64 (b + exact_sum ops i unit_order) := by
      unfold isInt64
      omega
    exact ⟨h64, wrap64_of_isInt64 h64⟩

/-- C10, at the call in which all seven operands are present with the greatest 32-bit value. -/
theorem offset_no_overflow_witness :
    duration_trace (fun _ => some [2147483647]) 0 unit_order 0
      = partial_sums (fun _ => some [2147483647]) 0 unit_order 0 ∧
    ∃ d, accumulate (some [2147483647]) (some [2147483647]) (some [2147483647])
        (some [2147483647]) (some [2147483647]) (some [2147483647]) (some [2147483647]) 0
          = .run d ∧
      -144115188075855872 < d ∧ d < 144115188075855872 := by
  obtain ⟨h1, _, d, h3, _, h5, h6, _⟩ := offset_no_overflow (fun _ => some [2147483647]) 0
    (by
      intro u p hu
      simp at hu
      subst hu
      exact ⟨2147483647, resolved_singleton _ _, by decide, by decide⟩)
  exact ⟨h1, d, h3, h5, h6⟩

/-- C11: the output cell at an index `i < size` depends only on what the call sees at `i`. Two
calls with the same `size` whose bases resolve to the same instant at `i` and whose operands are
present for the same units with the same resolved values at `i` write the same cell at `i`
whenever both return, whatever stands at the other indices; and both return when their vectors
can be read at every index. The embedding is a function of its inputs, so that two calls on
identical inputs return identical outputs. -/
theorem element_locality (x1 x2 : Sexp) (ops1 ops2 : Operands) (size i : Nat) (hi : i < size)
    (hb : resolved x1.dbl i = resolved x2.dbl i)
    (hops : ∀ u, (ops1 u).map (fun p => resolved p i) = (ops2 u).map (fun p => resolved p i)) :
    (∀ out1 out2, add_chrono x1 ops1 size = some out1 → add_chrono x2 ops2 size = some out2 →
      out1.dbl[i]? = out2.dbl[i]?) ∧
    (WellSized x1 ops1 size → WellSized x2 ops2 size →
      ∃ out1 out2, add_chrono x1 ops1 size = some out1 ∧ add_chrono x2 ops2 size = some out2 ∧
        out1.dbl[i]? = out2.dbl[i]?) := by
  have key : ∀ out1 out2, add_chrono x1 ops1 size = some out1 →
      add_chrono x2 ops2 size = some out2 → out1.dbl[i]? = out2.dbl[i]? := by
    intro out1 out2 h1 h2
    rw [add_chrono_get h1 hi, add_chrono_get h2 hi, loop_body_congr hb hops]
  refine ⟨key, ?_⟩
  intro w1 w2
  exact ⟨_, _, add_chrono_eq x1 ops1 size w1, add_chrono_eq x2 ops2 size w2,
    key _ _ (add_chrono_eq x1 ops1 size w1) (add_chrono_eq x2 ops2 size w2)⟩

/-- C11, at two calls of three cells that agree at the index 1 only: the base instant 20 and the
years value 2, given in a full operand in one call and as a scalar in the other. -/
theorem element_locality_witness :
    ∃ out1 out2,
      add_chrono ⟨[10, 20, 30], none, none⟩ (only .years [1, 2, 3]) 3 = some out1 ∧
      add_chrono ⟨[99, 20, r_int64_na], some ["a", "b", "c"], none⟩ (only .years [2]) 3
        = some out2 ∧
      out1.dbl[1]? = out2.dbl[1]? ∧ out1.dbl[1]? = some (.count 63113924) := by
  obtain ⟨out1, out2, h1, h2, h3⟩ := (element_locality ⟨[10, 20, 30], none, none⟩
    ⟨[99, 20, r_int64_na], some ["a", "b", "c"], none⟩ (only .years [1, 2, 3])
    (only .years [2]) 3 1 (by decide) (by decide) (by intro u; cases u <;> decide)).2
    (wellSized_only .years (by decide) (by decide))
    (wellSized_only .years (by decide) (by decide))
  refine ⟨out1, out2, h1, h2, h3, ?_⟩
  have e : add_chrono ⟨[10, 20, 30], none, none⟩ (only .years [1, 2, 3]) 3
      = some ⟨[.count 31556962, .count 63113924, .count 94670886], none,
          civil_classes_posixct, none⟩ := by decide
  rw [e] at h1
  cases h1
  rfl

/-- C12, the claim refuted: the base instant -9223372036854774784, a count that a double holds,
is not missing and the seconds value -1024 is a 32-bit value that is not missing; the output cell
is the count -9223372036854775808, which read as an instant is the missing marker. -/
theorem count_is_missing_instant :
    (-9223372036854774784 : Int) ≠ r_int64_na ∧
    to_double (-9223372036854774784) = -9223372036854774784 ∧
    isInt32 (-1024) ∧ (-1024 : Int) ≠ NA_INTEGER ∧
    add_chrono ⟨[-9223372036854774784], none, none⟩ (only .seconds [-1024]) 1
      = some ⟨[.count (-9223372036854775808)], none, civil_classes_posixct, none⟩ ∧
    as_int64 (.count (-9223372036854775808)) = r_int64_na := by
  decide

/-- C12, amended: in a call whose base and present operands can be read at every index, the call
returns, and at every index `i < size` the output cell is the marker `r_dbl_na` if and only if
the base instant is missing or some present operand is missing there. When none is missing the
output cell is the double nearest to the base plus the offset, added in 64 bits; it holds an
instant that is not missing whenever the base is at most 2^62 in magnitude and the present
operands resolve to 32-bit values. -/
theorem no_spurious_missing (x : Sexp) (ops : Operands) (size : Nat)
    (h : WellSized x ops size) :
    ∃ out, add_chrono x ops size = some out ∧
      ∀ i b, i < size → resolved x.dbl i = some b →
        (out.dbl[i]? = some .r_dbl_na ↔
          (b = r_int64_na ∨ ∃ u, ops.missing_at u i = true)) ∧
        ((b ≠ r_int64_na ∧ ∀ u, ops.missing_at u i = false) →
          out.dbl[i]? = some (.count (to_double (wrap64 (b + exact_sum ops i unit_order)))) ∧
          (-4611686018427387904 ≤ b → b ≤ 4611686018427387904 →
            (∀ u p, ops u = some p →
              ∃ n, resolved p i = some n ∧ isInt32 n ∧ n ≠ NA_INTEGER) →
            ∃ c, out.dbl[i]? = some (.count c) ∧ as_int64 (.count c) = c ∧
              c ≠ r_int64_na)) := by
  refine ⟨_, add_chrono_eq x ops size h, ?_⟩
  intro i b hi hb
  have hc : ((List.range' 0 size).map (pass_cell x ops))[i]? = some (pass_cell x ops i) :=
    getElem?_pass_cells x ops hi
  show (((List.range' 0 size).map (pass_cell x ops))[i]? = _ ↔ _) ∧
    (_ → ((List.range' 0 size).map (pass_cell x ops))[i]? = _ ∧
      (_ → _ → _ → ∃ c, ((List.range' 0 size).map (pass_cell x ops))[i]? = _ ∧ _))
  rw [hc]
  constructor
  · rcases pass_cell_cases x ops i hb with ⟨hp, hm⟩ | ⟨hna, hm, hp⟩
    · rw [hp]
      exact ⟨fun _ => hm, fun _ => rfl⟩
    · rw [hp]
      refine ⟨fun hcell => by simp at hcell, ?_⟩
      rintro (hb0 | ⟨u, hu⟩)
      · exact absurd hb0 hna
      · rw [hm u] at hu
        exact absurd hu (by decide)
  · rintro ⟨hna, hm⟩
    have hp := pass_cell_of_present hb hna hm
    refine ⟨by rw [hp], ?_⟩
    intro hb1 hb2 hv
    have he := exact_sum_bounds ops i hv
    have h64 : isInt64 (b + exact_sum ops i unit_order) := by
      unfold isInt64
      omega
    have herr := to_double_error (b + exact_sum ops i unit_order)
    have hd : isInt64 (to_double (b + exact_sum ops i unit_order)) := by
      unfold isInt64
      omega
    refine ⟨to_double (b + exact_sum ops i unit_order), ?_, as_int64_count hd, ?_⟩
    · rw [hp, wrap64_of_isInt64 h64]
    · unfold r_int64_na
      omega

/-- C12, amended, at a call of three cells: the first has nothing missing and is the count 86400,
an instant that is not missing; the second has a missing base instant, the third a missing days
cell. -/
theorem no_spurious_missing_witness :
    ∃ out, add_chrono ⟨[0, r_int64_na, 7], none, none⟩ (only .days [1, 1, NA_INTEGER]) 3
        = some out ∧
      (∃ c, out.dbl[0]? = some (.count c) ∧ as_int64 (.count c) = c ∧ c ≠ r_int64_na) ∧
      out.dbl[1]? = some .r_dbl_na ∧ out.dbl[2]? = some .r_dbl_na := by
  obtain ⟨out, ho, hv⟩ := no_spurious_missing ⟨[0, r_int64_na, 7], none, none⟩
    (only .days [1, 1, NA_INTEGER]) 3 (wellSized_only .days (by decide) (by decide))
  refine ⟨out, ho, ?_, ?_, ?_⟩
  · exact ((hv 0 0 (by decide) (by decide)).2
      ⟨by decide, by intro u; cases u <;> decide⟩).2 (by decide) (by decide)
      (by
        intro u p hu
        cases u <;> simp [only] at hu
        subst hu
        exact ⟨1, by decide, by decide, by decide⟩)
  · exact (hv 1 r_int64_na (by decide) (by decide)).1.mpr (Or.inl rfl)
  · exact (hv 2 7 (by decide) (by decide)).1.mpr (Or.inr ⟨.days, by decide⟩)

/-- C13: for every 32-bit weeks value `w` that is not the missing marker, the value
`d = 7 * w` reduced to 32 bits is a 32-bit value and never the missing marker, and in a call
whose base can be read at every index the call with weeks=[w] alone and the call with days=[d]
alone both return, with the same output, whose cell is a count wherever the base instant is not
missing. -/
theorem weeks_as_days (x : Sexp) (size : Nat) (w : Int) (hx : fits x.dbl size)
    (hw : isInt32 w) (hna : w ≠ NA_INTEGER) :
    isInt32 (wrap32 (7 * w)) ∧ wrap32 (7 * w) ≠ NA_INTEGER ∧
    ∃ out, add_chrono x (only .weeks [w]) size = some out ∧
      add_chrono x (only .days [wrap32 (7 * w)]) size = some out ∧
      ∀ i b, i < size → resolved x.dbl i = some b → b ≠ r_int64_na →
        ∃ c, out.dbl[i]? = some (.count c) := by
  have hd : wrap32 (7 * w) ≠ NA_INTEGER := by
    rw [mul_comm]
    exact wrap32_mul7_ne_NA hw hna
  have h1 : WellSized x (only .weeks [w]) size := wellSized_only .weeks hx (Or.inl rfl)
  have h2 : WellSized x (only .days [wrap32 (7 * w)]) size :=
    wellSized_only .days hx (Or.inl rfl)
  refine ⟨isInt32_wrap32 _, hd, _, add_chrono_eq x _ size h1, ?_, ?_⟩
  · rw [add_chrono_eq x _ size h2]
    have hl : (List.range' 0 size).map (pass_cell x (only .days [wrap32 (7 * w)]))
        = (List.range' 0 size).map (pass_cell x (only .weeks [w])) := by
      apply List.map_congr_left
      intro i _
      have e : w * 7 = 7 * w := mul_comm _ _
      unfold pass_cell reference_eval
      simp [unit_order, Operands.missing_at, Operands.contribution, Operands.value, only,
        resolved_singleton, Units.to_seconds, weeks_to_seconds, hna, hd, e]
    rw [hl]
  · intro i b hi hb hbna
    have hm : ∀ u, (only .weeks [w]).missing_at u i = false := by
      intro u
      cases u <;> simp [Operands.missing_at, only, resolved_singleton, hna]
    exact ⟨_, by
      show ((List.range' 0 size).map (pass_cell x (only .weeks [w])))[i]? = _
      rw [getElem?_pass_cells x _ hi, pass_cell_of_present hb hbna hm]⟩

/-- C13, at the weeks value 306783379, whose product by 7 leaves the 32-bit range: the call gives
what days=[-2147483643] gives. -/
theorem weeks_as_days_witness :
    wrap32 (7 * 306783379) = -2147483643 ∧
    ∃ out, add_chrono ⟨[0], none, none⟩ (only .weeks [306783379]) 1 = some out ∧
      add_chrono ⟨[0], none, none⟩ (only .days [wrap32 (7 * 306783379)]) 1 = some out ∧
      out.dbl = [.count (-185542586755200)] := by
  obtain ⟨_, _, out, h1, h2, _⟩ := weeks_as_days ⟨[0], none, none⟩ 1 306783379 (by decide)
    (by decide) (by decide)
  refine ⟨by decide, out, h1, h2, ?_⟩
  have e : add_chrono ⟨[0], none, none⟩ (only .weeks [306783379]) 1
      = some ⟨[.count (-185542586755200)], none, civil_classes_posixct, none⟩ := by decide
  rw [e] at h1
  cases h1
  rfl

/-- C16: the base is broadcast. With a base of exactly one cell `b` and operands that can be read
at every index, the call returns the output of the call whose base is `size` repetitions of `b`,
for every `size` (so for every `size > 1`); and when `b` is the missing instant every output cell
is the missing marker. -/
theorem base_broadcast (b : Int) (names tzone : Attr) (ops : Operands) (size : Nat)
    (hops : ∀ u p, ops u = some p → fits p size) :
    ∃ out, add_chrono ⟨[b], names, tzone⟩ ops size = some out ∧
      add_chrono ⟨List.replicate size b, names, tzone⟩ ops size = some out ∧
      (∀ i, i < size → resolved [b] i = some b) ∧
      (b = r_int64_na → out.dbl = List.replicate size .r_dbl_na) := by
  have h1 : WellSized ⟨[b], names, tzone⟩ ops size := ⟨Or.inl rfl, hops⟩
  have h2 : WellSized ⟨List.replicate size b, names, tzone⟩ ops size :=
    ⟨Or.inr (by simp), hops⟩
  refine ⟨_, add_chrono_eq _ ops size h1, ?_, fun i _ => resolved_singleton b i, ?_⟩
  · rw [add_chrono_eq _ ops size h2]
    have hl : (List.range' 0 size).map (pass_cell ⟨List.replicate size b, names, tzone⟩ ops)
        = (List.range' 0 size).map (pass_cell ⟨[b], names, tzone⟩ ops) := by
      apply List.map_congr_left
      intro i hi
      rw [List.mem_range'_1] at hi
      apply pass_cell_congr_base
      show resolved (List.replicate size b) i = resolved [b] i
      rw [resolved_singleton, resolved_replicate b (by omega)]
    rw [hl]
  · intro hb
    apply List.eq_replicate_iff.mpr
    refine ⟨by simp, ?_⟩
    intro c hc
    simp only [List.mem_map] at hc
    obtain ⟨i, _, hi⟩ := hc
    rw [← hi]
    apply pass_cell_of_base_missing
    show resolved [b] i = some r_int64_na
    rw [resolved_singleton, hb]

/-- C16, at a base of one cell with the output length 3 and a full days operand, and at the
missing base of one cell. -/
theorem base_broadcast_witness :
    (∃ out, add_chrono ⟨[100], none, none⟩ (only .days [1, 2, 3]) 3 = some out ∧
      add_chrono ⟨[100, 100, 100], none, none⟩ (only .days [1, 2, 3]) 3 = some out ∧
      out.dbl = [.count 86500, .count 172900, .count 259300]) ∧
    (∃ out, add_chrono ⟨[r_int64_na], none, none⟩ (only .days [1, 2, 3]) 3 = some out ∧
      out.dbl = [.r_dbl_na, .r_dbl_na, .r_dbl_na]) := by
  constructor
  · obtain ⟨out, h1, h2, _, _⟩ := base_broadcast 100 none none (only .days [1, 2, 3]) 3
      (show WellSized (⟨[100], none, none⟩ : Sexp) (only .days [1, 2, 3]) 3 from
        wellSized_only .days (by decide) (by decide)).2
    refine ⟨out, h1, h2, ?_⟩
    have e : add_chrono ⟨[100], none, none⟩ (only .days [1, 2, 3]) 3
        = some ⟨[.count 86500, .count 172900, .count 259300], none, civil_classes_posixct,
            none⟩ := by decide
    rw [e] at h1
    cases h1
    rfl
  · obtain ⟨out, h1, _, _, h4⟩ := base_broadcast r_int64_na none none (only .days [1, 2, 3]) 3
      (show WellSized (⟨[100], none, none⟩ : Sexp) (only .days [1, 2, 3]) 3 from
        wellSized_only .days (by decide) (by decide)).2
    exact ⟨out, h1, h4 rfl⟩

/-- C14, the claim refuted, at two inputs. With the base instant 2^53 and the seconds value 1 the
call returns the double nearest to 2^53 + 1, which is 2^53, and the call on that result with
the negated value -1 returns 2^53 - 1, not the base instant. With the base instant
-9223372036854774784 and the seconds value -1024 the call returns the count
-9223372036854775808, which the call on that result reads as the missing instant, so that the
call with the negated value 1024 returns the missing marker. -/
theorem negation_not_undone :
    ((9007199254740992 : Int) ≠ r_int64_na ∧ isInt32 1 ∧ (1 : Int) ≠ NA_INTEGER ∧
      add_chrono ⟨[9007199254740992], none, none⟩ (only .seconds [1]) 1
        = some ⟨[.count 9007199254740992], none, civil_classes_posixct, none⟩ ∧
      add_chrono (Posixct.as_base ⟨[.count 9007199254740992], none, civil_classes_posixct,
          none⟩) (negated (only .seconds [1])) 1
        = some ⟨[.count 9007199254740991], none, civil_classes_posixct, none⟩) ∧
    ((-9223372036854774784 : Int) ≠ r_int64_na ∧ isInt32 (-1024) ∧
      (-1024 : Int) ≠ NA_INTEGER ∧
      add_chrono ⟨[-9223372036854774784], none, none⟩ (only .seconds [-1024]) 1
        = some ⟨[.count (-9223372036854775808)], none, civil_classes_posixct, none⟩ ∧
      add_chrono (Posixct.as_base ⟨[.count (-9223372036854775808)], none,
          civil_classes_posixct, none⟩) (negated (only .seconds [-1024])) 1
        = some ⟨[.r_dbl_na], none, civil_classes_posixct, none⟩) := by
  decide

/-- C14, amended: the negation of a 32-bit value that is not the missing marker is again such a
value. In a call whose vectors can be read at every index, the call and the call on its result
with every operand cell negated both return, and at every index `i < size` where the base
instant `b` is a 64-bit count that a double holds and is not missing, and every present operand
resolves to a 32-bit value that is not missing, the first call writes a count, and the second
call writes `b` again provided that count is the 64-bit sum of base and offset, stored without
rounding, and is not the missing marker of an instant; this is so whenever the magnitude of the
sum is at most 2^53. -/
theorem negation_undoes (x : Sexp) (ops : Operands) (size : Nat) (h : WellSized x ops size) :
    (∀ n, isInt32 n → n ≠ NA_INTEGER → isInt32 (-n) ∧ -n ≠ NA_INTEGER) ∧
    ∃ out1 out2, add_chrono x ops size = some out1 ∧
      add_chrono out1.as_base (negated ops) size = some out2 ∧
      ∀ i b, i < size → resolved x.dbl i = some b → isInt64 b → to_double b = b →
        b ≠ r_int64_na →
        (∀ u p, ops u = some p → ∃ n, resolved p i = some n ∧ isInt32 n ∧ n ≠ NA_INTEGER) →
          ∃ c, out1.dbl[i]? = some (.count c) ∧
            (c = wrap64 (b + exact_sum ops i unit_order) → c ≠ r_int64_na →
              out2.dbl[i]? = some (.count b)) ∧
            (-9007199254740992 ≤ b + exact_sum ops i unit_order →
              b + exact_sum ops i unit_order ≤ 9007199254740992 →
                out2.dbl[i]? = some (.count b)) := by
  constructor
  · intro n hn hna
    unfold isInt32 at *
    unfold NA_INTEGER at *
    omega
  · refine ⟨pass_output x ops size, pass_output (pass_output x ops size).as_base (negated ops)
      size, add_chrono_eq_pass_output x ops size h,
      add_chrono_eq_pass_output _ _ size (wellSized_as_base x ops _ size (fits_negated h.2)),
      ?_⟩
    intro i b hi hb h64 hrep hbna hv
    have hm1 := missing_of_values hv
    have hm2 := missing_negated hv
    have key : to_double (wrap64 (b + exact_sum ops i unit_order))
          = wrap64 (b + exact_sum ops i unit_order) →
        wrap64 (b + exact_sum ops i unit_order) ≠ r_int64_na →
        (pass_output (pass_output x ops size).as_base (negated ops) size).dbl[i]?
          = some (.count b) := by
      intro hex hc
      rw [getElem?_pass_output _ _ hi, chain_cell x ops (negated ops) hi hb hbna hm1 hm2 hex hc,
        exact_sum_negated hv]
      have e : b + exact_sum ops i unit_order + -exact_sum ops i unit_order = b := by ring
      rw [e, wrap64_of_isInt64 h64, hrep]
    refine ⟨to_double (wrap64 (b + exact_sum ops i unit_order)), ?_, ?_, ?_⟩
    · rw [getElem?_pass_output x ops hi, pass_cell_of_present hb hbna hm1]
    · intro hex hc
      exact key hex (hex ▸ hc)
    · intro h1 h2
      obtain ⟨s1, s2, s3⟩ := stored_exactly h1 h2
      exact key (by rw [s2] at s1 ⊢; exact s1) (by rw [s2]; exact s3)

/-- C14, amended, at the base [100] with years=[3] and weeks=[-5]: the call on the result with
years=[-3] and weeks=[5] gives [100] again. -/
theorem negation_undoes_witness :
    ∃ out1 out2, add_chrono ⟨[100], none, none⟩
        (fun u => if u = .years then some [3] else if u = .weeks then some [-5] else none) 1
          = some out1 ∧
      add_chrono out1.as_base (negated
        (fun u => if u = .years then some [3] else if u = .weeks then some [-5] else none)) 1
          = some out2 ∧
      out1.dbl = [.count 91646956] ∧ out2.dbl[0]? = some (.count 100) := by
  obtain ⟨out1, out2, h1, h2, hv⟩ := (negation_undoes ⟨[100], none, none⟩
    (fun u => if u = .years then some [3] else if u = .weeks then some [-5] else none) 1
    ⟨by decide, by intro u p hu; cases u <;> simp at hu <;> subst hu <;> decide⟩).2
  have e : add_chrono ⟨[100], none, none⟩
      (fun u => if u = .years then some [3] else if u = .weeks then some [-5] else none) 1
        = some ⟨[.count 91646956], none, civil_classes_posixct, none⟩ := by decide
  have h1c := h1
  rw [e] at h1c
  cases h1c
  obtain ⟨c, _, _, hc3⟩ := hv 0 100 (by decide) (by decide) (by decide) (by decide)
    (by decide)
    (by intro u p hu; cases u <;> simp at hu <;> subst hu <;>
      exact ⟨_, rfl, by decide, by decide⟩)
  exact ⟨_, out2, h1, h2, rfl, hc3 (by decide) (by decide)⟩

/-- C15, the claim refuted, at two inputs. With the base instant 2^54 and the disjoint sets
seconds=[1] and months=[1], whose values are not missing, the one call returns
18014398512111732, while the call with seconds returns the double nearest to 2^54 + 1, which is
2^54, and the call with months on that result returns 18014398512111728. With the base instant
-9223372036854774784 and the sets seconds=[-1024] and days=[1], the one call returns
-9223372036854689792 and so does days followed by seconds, while the call with seconds returns
-9223372036854775808, which the following call with days reads as the missing instant. -/
theorem split_not_equal :
    ((18014398509481984 : Int) ≠ r_int64_na ∧
      add_chrono ⟨[18014398509481984], none, none⟩
          (merged (only .seconds [1]) (only .months [1])) 1
        = some ⟨[.count 18014398512111732], none, civil_classes_posixct, none⟩ ∧
      add_chrono ⟨[18014398509481984], none, none⟩ (only .seconds [1]) 1
        = some ⟨[.count 18014398509481984], none, civil_classes_posixct, none⟩ ∧
      add_chrono (Posixct.as_base ⟨[.count 18014398509481984], none, civil_classes_posixct,
          none⟩) (only .months [1]) 1
        = some ⟨[.count 18014398512111728], none, civil_classes_posixct, none⟩) ∧
    ((-9223372036854774784 : Int) ≠ r_int64_na ∧
      add_chrono ⟨[-9223372036854774784], none, none⟩
          (merged (only .seconds [-1024]) (only .days [1])) 1
        = some ⟨[.count (-9223372036854689792)], none, civil_classes_posixct, none⟩ ∧
      add_chrono ⟨[-9223372036854774784], none, none⟩ (only .seconds [-1024]) 1
        = some ⟨[.count (-9223372036854775808)], none, civil_classes_posixct, none⟩ ∧
      add_chrono (Posixct.as_base ⟨[.count (-9223372036854775808)], none,
          civil_classes_posixct, none⟩) (only .days [1]) 1
        = some ⟨[.r_dbl_na], none, civil_classes_posixct, none⟩ ∧
      add_chrono ⟨[-9223372036854774784], none, none⟩ (only .days [1]) 1
        = some ⟨[.count (-9223372036854688768)], none, civil_classes_posixct, none⟩ ∧
      add_chrono (Posixct.as_base ⟨[.count (-9223372036854688768)], none,
          civil_classes_posixct, none⟩) (only .seconds [-1024]) 1
        = some ⟨[.count (-9223372036854689792)], none, civil_classes_posixct, none⟩) := by
  decide

/-- C15, amended: for two sets of operands with no unit present in both, in calls whose vectors
can be read at every index, the call with both sets, the call with the first set followed by the
call with the second on its result, and the calls in the other order all return. At every index
`i < size` where the base instant is not missing and no present operand is missing, each first
call writes a count, the call with both sets writes a count, and a split writes the same cell as
the call with both sets provided the count its first call wrote is the 64-bit sum of base and
offset, stored without rounding, and is not the missing marker of an instant; this is so
whenever the magnitude of that sum is at most 2^53. -/
theorem split_call (x : Sexp) (opsA opsB : Operands) (size : Nat)
    (hA : WellSized x opsA size) (hB : WellSized x opsB size)
    (hd : ∀ u, opsA u = none ∨ opsB u = none) :
    ∃ one afterA thenB afterB thenA,
      add_chrono x (merged opsA opsB) size = some one ∧
      add_chrono x opsA size = some afterA ∧
      add_chrono afterA.as_base opsB size = some thenB ∧
      add_chrono x opsB size = some afterB ∧
      add_chrono afterB.as_base opsA size = some thenA ∧
      ∀ i b, i < size → resolved x.dbl i = some b → b ≠ r_int64_na →
        (∀ u, opsA.missing_at u i = false) → (∀ u, opsB.missing_at u i = false) →
          ∃ c cA cB, one.dbl[i]? = some (.count c) ∧
            afterA.dbl[i]? = some (.count cA) ∧ afterB.dbl[i]? = some (.count cB) ∧
            (cA = wrap64 (b + exact_sum opsA i unit_order) → cA ≠ r_int64_na →
              thenB.dbl[i]? = one.dbl[i]?) ∧
            (cB = wrap64 (b + exact_sum opsB i unit_order) → cB ≠ r_int64_na →
              thenA.dbl[i]? = one.dbl[i]?) ∧
            (-9007199254740992 ≤ b + exact_sum opsA i unit_order →
              b + exact_sum opsA i unit_order ≤ 9007199254740992 →
                thenB.dbl[i]? = one.dbl[i]?) ∧
            (-9007199254740992 ≤ b + exact_sum opsB i unit_order →
              b + exact_sum opsB i unit_order ≤ 9007199254740992 →
                thenA.dbl[i]? = one.dbl[i]?) := by
  have hAB : WellSized x (merged opsA opsB) size := ⟨hA.1, fits_merged hA.2 hB.2⟩
  refine ⟨pass_output x (merged opsA opsB) size, pass_output x opsA size,
    pass_output (pass_output x opsA size).as_base opsB size, pass_output x opsB size,
    pass_output (pass_output x opsB size).as_base opsA size,
    add_chrono_eq_pass_output x _ size hAB, add_chrono_eq_pass_output x _ size hA,
    add_chrono_eq_pass_output _ _ size (wellSized_as_base x opsA _ size hB.2),
    add_chrono_eq_pass_output x _ size hB,
    add_chrono_eq_pass_output _ _ size (wellSized_as_base x opsB _ size hA.2), ?_⟩
  intro i b hi hb hbna hmA hmB
  have hone : (pass_output x (merged opsA opsB) size).dbl[i]?
      = some (.count (to_double (wrap64 (b + (exact_sum opsA i unit_order
          + exact_sum opsB i unit_order))))) := by
    rw [getElem?_pass_output x _ hi, pass_cell_of_present hb hbna (missing_merged hmA hmB),
      exact_sum_merged i hd]
  have keyA : to_double (wrap64 (b + exact_sum opsA i unit_order))
        = wrap64 (b + exact_sum opsA i unit_order) →
      wrap64 (b + exact_sum opsA i unit_order) ≠ r_int64_na →
      (pass_output (pass_output x opsA size).as_base opsB size).dbl[i]?
        = (pass_output x (merged opsA opsB) size).dbl[i]? := by
    intro hex hc
    rw [hone, getElem?_pass_output _ _ hi, chain_cell x opsA opsB hi hb hbna hmA hmB hex hc,
      add_assoc]
  have keyB : to_double (wrap64 (b + exact_sum opsB i unit_order))
        = wrap64 (b + exact_sum opsB i unit_order) →
      wrap64 (b + exact_sum opsB i unit_order) ≠ r_int64_na →
      (pass_output (pass_output x opsB size).as_base opsA size).dbl[i]?
        = (pass_output x (merged opsA opsB) size).dbl[i]? := by
    intro hex hc
    rw [hone, getElem?_pass_output _ _ hi, chain_cell x opsB opsA hi hb hbna hmB hmA hex hc,
      add_assoc, add_comm (exact_sum opsB i unit_order)]
  refine ⟨_, to_double (wrap64 (b + exact_sum opsA i unit_order)),
    to_double (wrap64 (b + exact_sum opsB i unit_order)), hone, ?_, ?_, ?_, ?_, ?_, ?_⟩
  · rw [getElem?_pass_output x _ hi, pass_cell_of_present hb hbna hmA]
  · rw [getElem?_pass_output x _ hi, pass_cell_of_present hb hbna hmB]
  · intro hex hc
    exact keyA hex (hex ▸ hc)
  · intro hex hc
    exact keyB hex (hex ▸ hc)
  · intro h1 h2
    obtain ⟨s1, s2, s3⟩ := stored_exactly h1 h2
    exact keyA (by rw [s2] at s1 ⊢; exact s1) (by rw [s2]; exact s3)
  · intro h1 h2
    obtain ⟨s1, s2, s3⟩ := stored_exactly h1 h2
    exact keyB (by rw [s2] at s1 ⊢; exact s1) (by rw [s2]; exact s3)

/-- C15, amended, at the base [100] with the sets {years} and {hours}, years=[1] and
hours=[2]: both splits give what the one call gives. -/
theorem split_call_witness :
    ∃ one afterA thenB afterB thenA,
      add_chrono ⟨[100], none, none⟩ (merged (only .years [1]) (only .hours [2])) 1
        = some one ∧
      add_chrono ⟨[100], none, none⟩ (only .years [1]) 1 = some afterA ∧
      add_chrono afterA.as_base (only .hours [2]) 1 = some thenB ∧
      add_chrono ⟨[100], none, none⟩ (only .hours [2]) 1 = some afterB ∧
      add_chrono afterB.as_base (only .years [1]) 1 = some thenA ∧
      one.dbl = [.count 31564252] ∧
      thenB.dbl[0]? = one.dbl[0]? ∧ thenA.dbl[0]? = one.dbl[0]? := by
  obtain ⟨one, afterA, thenB, afterB, thenA, h1, h2, h3, h4, h5, hv⟩ :=
    split_call ⟨[100], none, none⟩ (only .years [1]) (only .hours [2]) 1
      (wellSized_only .years (by decide) (by decide))
      (wellSized_only .hours (by decide) (by decide))
      (by intro u; cases u <;> decide)
  have e1 : add_chrono ⟨[100], none, none⟩ (merged (only .years [1]) (only .hours [2])) 1
      = some ⟨[.count 31564252], none, civil_classes_posixct, none⟩ := by decide
  have h1c := h1
  rw [e1] at h1c
  cases h1c
  obtain ⟨c, cA, cB, _, _, _, _, _, hAB, hBA⟩ := hv 0 100 (by decide) (by decide) (by decide)
    (by intro u; cases u <;> decide) (by intro u; cases u <;> decide)
  exact ⟨_, afterA, thenB, afterB, thenA, h1, h2, h3, h4, h5, rfl,
    hAB (by decide) (by decide), hBA (by decide) (by decide)⟩

end Civil
